import Mathlib

/-!
Verification of the local-ci stage execution engine.

This file gives a shallow embedding, in Lean 4, of the core of the
local-ci runner: dependency-graph construction and validation
(`buildDepGraph`, `detectCycles` in parallel.go), layered scheduling
(`resolveOrder`, `RunParallel`), per-stage cache checking
(`executeStage`), the sequential run loop of main.go, the flat cache
file serialization (`saveCache` / `loadCache`), the remote backend's
sentinel-file protocol (`ExecuteStage` / `pollExitCode`), and the
upstream command validation (`validateStageCommands`).

Modelling conventions:
  * Go maps are modelled as association lists with overwrite-on-insert
    (`setDep`, `setAssoc`), so keys are unique, matching Go map
    semantics; absent keys read as the zero value "".
  * Go map iteration order is unspecified; `detectCycles` is modelled
    iterating keys in insertion order.  The properties proved below
    (an error is reported iff a cycle exists, and the reported stage
    lies on a cycle) are independent of the iteration order.
  * Subprocess execution, SSH transport and the remote file system are
    modelled by explicit oracles (`run`, `read` functions) passed to the
    embedded functions; wall-clock time in the remote backend advances
    in 100ms ticks, the poll interval of the Go code.
  * Goroutine completion timing inside one layer is abstracted: a layer
    is modelled as executing its stages in dispatch order, and the
    layer barrier (`wg.Wait`) is kept exactly.
  * Go panics (indexing `stage.Cmd[0]` of an empty slice) are modelled
    by `Option`, with `none` for the panic.
-/

namespace LocalCI

/-- Stage, as read by the execution engine (parallel.go): a name, the
command tokens, a timeout in seconds (0 = absent), and the name of the
single stage this one depends on ("" = no dependency). -/
structure Stage where
  name : String
  cmd : List String
  timeout : Nat
  dependsOn : String
deriving Repr, DecidableEq

/-- Result of attempting one stage (the Result struct; duration in
nanoseconds, error as an optional message string). -/
structure Result where
  name : String
  command : String
  status : String
  duration : Nat
  output : String
  cacheHit : Bool
  error : Option String
deriving Repr, DecidableEq

/-- strings.Join(cmd, " ") -/
def joinSpace (l : List String) : String :=
  String.intercalate " " l

/-! ## Dependency graph (buildDepGraph / detectCycles of parallel.go) -/

/-- The deps map from stage name to its single dependency name,
modelled as an association list with unique keys. -/
abbrev DepMap := List (String × String)

/-- Go map read with zero-value default: deps[name] is "" when absent. -/
def lookupDep (deps : DepMap) (n : String) : String :=
  match deps with
  | [] => ""
  | p :: rest => if p.1 = n then p.2 else lookupDep rest n

/-- Go map write: overwrite the existing entry or append a new one. -/
def setDep (deps : DepMap) (k v : String) : DepMap :=
  match deps with
  | [] => [(k, v)]
  | p :: rest => if p.1 = k then (k, v) :: rest else p :: setDep rest k v

def stageNames (stages : List Stage) : List String :=
  stages.map (fun s => s.name)

/-- Error text of buildDepGraph for a missing dependency target. -/
def missingDepMsg (s d : String) : String :=
  "stage \"" ++ s ++ "\" depends on \"" ++ d ++ "\" which is not in the stage list"

/-- Error text of detectCycles. -/
def cycleMsg (n : String) : String :=
  "circular dependency detected involving \"" ++ n ++ "\""

/-- The validation loop of buildDepGraph: for each stage with a
non-empty DependsOn, check the target exists in the name set, else
fail; collect the dependency edges into the deps map. -/
def collectDeps (names : List String) : List Stage → DepMap → Except String DepMap
  | [], acc => .ok acc
  | s :: rest, acc =>
    if s.dependsOn = "" then collectDeps names rest acc
    else if s.dependsOn ∈ names then
      collectDeps names rest (setDep acc s.name s.dependsOn)
    else .error (missingDepMsg s.name s.dependsOn)

/-- One walk of detectCycles: follow the dependency chain from `cur`,
stopping at "" (no further dependency), erroring when a node already in
this walk's chain is revisited.  Returns the error (if any) and the
updated global visited set.  `fuel` bounds the recursion; with the fuel
used by `detectCycles` it never runs out (see `walkChain_fuel_stable`). -/
def walkChain (f : String → String) :
    Nat → List String → List String → String → Option String × List String
  | 0, _, visited, _ => (none, visited)
  | fuel + 1, chain, visited, cur =>
    if cur = "" then (none, visited)
    else if cur ∈ chain then (some (cycleMsg cur), visited)
    else walkChain f fuel (cur :: chain) (cur :: visited) (f cur)

/-- The outer loop of detectCycles over the deps map's keys, threading
the visited set between walks and skipping already-visited keys. -/
def detectLoop (f : String → String) (fuel : Nat) :
    List String → List String → Option String
  | [], _ => none
  | n :: rest, visited =>
    if n ∈ visited then detectLoop f fuel rest visited
    else
      match walkChain f fuel [] visited n with
      | (some e, _) => some e
      | (none, visited') => detectLoop f fuel rest visited'

/-- detectCycles of parallel.go. -/
def detectCycles (deps : DepMap) : Option String :=
  detectLoop (lookupDep deps) (deps.length + 2) (deps.map (fun p => p.1)) []

/-- buildDepGraph of parallel.go: validate all DependsOn targets, then
reject cycles. -/
def buildDepGraph (stages : List Stage) : Except String DepMap :=
  match collectDeps (stageNames stages) stages [] with
  | .error e => .error e
  | .ok deps =>
    match detectCycles deps with
    | some e => .error e
    | none => .ok deps

/-! ## Layering (resolveOrder of parallel.go) -/

/-- getLayer of resolveOrder: a stage with no dependency is in layer 0,
otherwise 1 + the layer of its dependency.  (The Go code memoizes this
recursion; memoization does not change its value.)  `fuel` bounds the
recursion; after a successful cycle check `layerFuel` is always enough
(see `getLayer_stable`). -/
def getLayer (f : String → String) : Nat → String → Nat
  | 0, _ => 0
  | fuel + 1, n => if f n = "" then 0 else getLayer f fuel (f n) + 1

def layerFuel (deps : DepMap) : Nat := deps.length + 1

/-- The layers array of resolveOrder: layer l holds, in stage-list
order, every stage whose computed layer is l (the Go code appends each
stage to layers[layerOf[name]], which yields exactly this grouping). -/
def mkLayers (stages : List Stage) (f : String → String) (fl : Nat) :
    List (List Stage) :=
  let maxLayer := stages.foldl (fun m s => max m (getLayer f fl s.name)) 0
  (List.range (maxLayer + 1)).map
    (fun l => stages.filter (fun s => getLayer f fl s.name == l))

/-- resolveOrder of parallel.go: build and validate the graph, then
partition the stages into execution layers. -/
def resolveOrder (stages : List Stage) : Except String (List (List Stage)) :=
  match buildDepGraph stages with
  | .error e => .error e
  | .ok deps => .ok (mkLayers stages (lookupDep deps) (layerFuel deps))

/-! ## The layered scheduler (RunParallel of parallel.go)

`exec` abstracts `executeStage` (cache check plus backend execution).
A layer's goroutines are modelled as executing in dispatch order; the
`wg.Wait` barrier between layers is kept: the failure flag consulted
before a layer reflects exactly the layers already completed. -/

def anyFailed (rs : List Result) : Bool :=
  rs.any (fun r => r.status == "fail")

/-- The stages the scheduler dispatches: whole layers in order, stopping
after the first layer containing a failure when failFast is set. -/
def executedStages (exec : Stage → Result) (failFast : Bool) :
    List (List Stage) → List Stage
  | [] => []
  | layer :: rest =>
    if failFast && anyFailed (layer.map exec) then layer
    else layer ++ executedStages exec failFast rest

/-- The per-layer loop of RunParallel: run each layer, collect its
results, and with failFast stop before starting the layer after a
failing one. -/
def runLayers (exec : Stage → Result) (failFast : Bool) :
    List (List Stage) → List Result
  | [] => []
  | layer :: rest =>
    let rs := layer.map exec
    if failFast && anyFailed rs then rs
    else rs ++ runLayers exec failFast rest

/-- RunParallel of parallel.go: resolve layers, then run them; a graph
error aborts before any stage executes. -/
def runParallel (exec : Stage → Result) (failFast : Bool)
    (stages : List Stage) : Except String (List Result) :=
  match resolveOrder stages with
  | .error e => .error e
  | .ok layers => .ok (runLayers exec failFast layers)

/-! ## executeStage (parallel.go): cache check and local backend -/

/-- String-keyed Go map with zero-value "" on absent keys. -/
def lookupS (m : List (String × String)) (k : String) : String :=
  match m with
  | [] => ""
  | p :: rest => if p.1 = k then p.2 else lookupS rest k

/-- Go map write with overwrite. -/
def setAssoc (m : List (String × String)) (k v : String) :
    List (String × String) :=
  match m with
  | [] => [(k, v)]
  | p :: rest => if p.1 = k then (k, v) :: rest else p :: setAssoc rest k v

/-- The fields of ParallelRunner consulted by executeStage. -/
structure RunnerConfig where
  noCache : Bool
  cache : List (String × String)
  stageHashes : List (String × String)
deriving Repr

/-- stageCacheKey of executeStage: per-stage content hash, "|", and the
joined command string. -/
def stageCacheKey (cfg : RunnerConfig) (stage : Stage) : String :=
  lookupS cfg.stageHashes stage.name ++ "|" ++ joinSpace stage.cmd

/-- Outcome of one subprocess execution, abstracting exec.CommandContext:
a failure message when the process exited non-zero or the deadline
expired, the combined output, and the elapsed wall-clock time. -/
structure ExecOutcome where
  failure : Option String
  output : String
  elapsed : Nat
deriving Repr

/-- The timeout executeStage passes to context.WithTimeout, in seconds:
the stage's timeout, or 30 when it is zero. -/
def effectiveTimeout (stage : Stage) : Nat :=
  if stage.timeout = 0 then 30 else stage.timeout

/-- executeStage of parallel.go.  `run prog args timeoutSecs` abstracts
spawning the subprocess.  Returns the Result and whether the backend
was invoked; `none` models the Go panic from indexing stage.Cmd[0] when
the command list is empty. -/
def executeStage (cfg : RunnerConfig)
    (run : String → List String → Nat → ExecOutcome) (stage : Stage) :
    Option (Result × Bool) :=
  let cmdStr := joinSpace stage.cmd
  let key := stageCacheKey cfg stage
  if !cfg.noCache && lookupS cfg.cache stage.name == key then
    some ({ name := stage.name, command := cmdStr, status := "pass",
            duration := 0, output := "", cacheHit := true, error := none },
          false)
  else
    match stage.cmd with
    | [] => none
    | prog :: args =>
      let o := run prog args (effectiveTimeout stage)
      some ({ name := stage.name, command := cmdStr,
              status := if o.failure.isSome then "fail" else "pass",
              duration := o.elapsed, output := o.output, cacheHit := false,
              error := o.failure },
            true)

/-! ## validateStageCommands (main.go of the universal-runner snapshot) -/

/-- requireCommand: LookPath is abstracted by the `inPath` oracle. -/
def requireCommandMsg (name : String) : String :=
  "required command \"" ++ name ++ "\" not found in PATH"

def emptyCommandMsg (s : String) : String :=
  "stage \"" ++ s ++ "\" has empty command"

def requiresMsg (s c : String) : String :=
  "stage \"" ++ s ++ "\" requires command \"" ++ c ++ "\": " ++ requireCommandMsg c

/-- validateStageCommands: reject a stage with an empty command, then
check each first token is available in PATH (deduplicating lookups). -/
def validateStageCommands (inPath : String → Bool) :
    List Stage → List String → Except String Unit
  | [], _ => .ok ()
  | s :: rest, seen =>
    match s.cmd with
    | [] => .error (emptyCommandMsg s.name)
    | c :: _ =>
      if c ∈ seen then validateStageCommands inPath rest seen
      else if inPath c then validateStageCommands inPath rest (c :: seen)
      else .error (requiresMsg s.name c)

/-! ## The sequential run loop of main.go (run stages, update cache,
persist once at the end) -/

/-- Outcome of cmd.Run() in the sequential loop. -/
structure SeqOutcome where
  failed : Bool
  errText : String
  output : String
  elapsed : Nat
deriving Repr

/-- One iteration of the sequential stage loop of main.go: check the
cache against the stage's key; on hit emit a zero-duration cached pass;
on miss run the stage, and only on success write the stage's key back
into the in-memory cache. -/
def seqStep (exec : Stage → SeqOutcome) (noCache : Bool)
    (key : Stage → String)
    (acc : List Result × List (String × String)) (stage : Stage) :
    List Result × List (String × String) :=
  let results := acc.1
  let cache := acc.2
  if !noCache && lookupS cache stage.name == key stage then
    (results ++ [{ name := stage.name, command := joinSpace stage.cmd,
                   status := "pass", duration := 0, output := "",
                   cacheHit := true, error := none }],
     cache)
  else
    let o := exec stage
    if o.failed then
      (results ++ [{ name := stage.name, command := joinSpace stage.cmd,
                     status := "fail", duration := o.elapsed,
                     output := o.output, cacheHit := false,
                     error := some o.errText }],
       cache)
    else
      (results ++ [{ name := stage.name, command := joinSpace stage.cmd,
                     status := "pass", duration := o.elapsed,
                     output := o.output, cacheHit := false, error := none }],
       setAssoc cache stage.name (key stage))

/-- The whole sequential run: fold the stage loop, returning the results
and the final in-memory cache. -/
def runSeq (exec : Stage → SeqOutcome) (noCache : Bool)
    (key : Stage → String) (stages : List Stage)
    (cache0 : List (String × String)) :
    List Result × List (String × String) :=
  stages.foldl (seqStep exec noCache key) ([], cache0)

/-- After the loop, main.go persists the full cache exactly once
(saveCache), and only when caching is enabled. -/
def persistedCache (noCache : Bool) (finalCache : List (String × String)) :
    Option (List (String × String)) :=
  if noCache then none else some finalCache

/-! ## Cache file serialization (saveCache / loadCache)

Strings are modelled as lists of characters (the Go code splits on the
single characters '\n' and ':').  `splitOnSep` mirrors strings.Split
for a one-character separator, `joinWithSep` mirrors strings.Join. -/

abbrev CacheMap := List (List Char × List Char)

def lookupC (m : CacheMap) (k : List Char) : Option (List Char) :=
  match m with
  | [] => none
  | p :: rest => if p.1 = k then some p.2 else lookupC rest k

/-- Go map write with overwrite (cache[parts[0]] = parts[1]). -/
def setCacheEntry (m : CacheMap) (k v : List Char) : CacheMap :=
  match m with
  | [] => [(k, v)]
  | p :: rest => if p.1 = k then (k, v) :: rest else p :: setCacheEntry rest k v

/-- strings.Split(s, sep) for a one-character separator: always returns
one more part than there are separators; Split("", sep) = [""]. -/
def splitOnSep (sep : Char) : List Char → List (List Char)
  | [] => [[]]
  | c :: rest =>
    if c = sep then [] :: splitOnSep sep rest
    else
      match splitOnSep sep rest with
      | [] => [[c]]
      | h :: t => (c :: h) :: t

/-- strings.Join(parts, sep) for a one-character separator. -/
def joinWithSep (sep : Char) : List (List Char) → List Char
  | [] => []
  | [x] => x
  | x :: xs => x ++ sep :: joinWithSep sep xs

/-- One line of loadCache: skip empty lines; split on ':' and accept the
line only when it has exactly two parts (main.go's strings.Split check),
ignoring malformed lines without error. -/
def loadCacheLine (m : CacheMap) (line : List Char) : CacheMap :=
  if line = [] then m
  else
    match splitOnSep ':' line with
    | [k, v] => setCacheEntry m k v
    | _ => m

/-- loadCache of main.go, applied to file content. -/
def loadCacheContent (content : List Char) : CacheMap :=
  (splitOnSep '\n' content).foldl loadCacheLine []

/-- Lexicographic byte order on strings (sort.Strings). -/
def lexLe : List Char → List Char → Bool
  | [], _ => true
  | _ :: _, [] => false
  | a :: as, b :: bs =>
    if a = b then lexLe as bs else decide (a.toNat ≤ b.toNat)

def insertSorted (p : List Char × List Char) :
    CacheMap → CacheMap
  | [] => [p]
  | q :: rest =>
    if lexLe p.1 q.1 then p :: q :: rest else q :: insertSorted p rest

/-- The entries sorted by name (sort.Strings over the key slice). -/
def sortByKey : CacheMap → CacheMap
  | [] => []
  | p :: rest => insertSorted p (sortByKey rest)

def cacheLine (p : List Char × List Char) : List Char :=
  p.1 ++ ':' :: p.2

/-- saveCache of the universal-runner snapshot: one name:cacheKey line
per entry, sorted by name, joined with newlines. -/
def saveCacheContent (m : CacheMap) : List Char :=
  joinWithSep '\n' ((sortByKey m).map cacheLine)

/-! ## Remote backend (RemoteExecutor.ExecuteStage / pollExitCode)

Wall-clock time advances in ticks of 100ms, the Go poll interval and
settle delay.  The per-stage context deadline is stage.Timeout seconds,
i.e. `stage.timeout * 10` ticks; the context is expired once the
elapsed ticks reach that budget.  `read i` abstracts the
"ssh cat sentinel" call at poll attempt `i`: `none` when the call
errors, otherwise the file content (the empty string when the file is
not present yet). -/

/-- remote deadline in 100ms ticks: context.WithTimeout with exactly
stage.Timeout seconds and no zero default. -/
def remoteBudget (stage : Stage) : Nat := stage.timeout * 10

def ctxExpired (budget elapsed : Nat) : Bool := budget ≤ elapsed

def sentinelPath (stage : Stage) (nonce : Nat) : String :=
  "/tmp/kc_exit_" ++ stage.name ++ "_" ++ toString nonce

def timeoutMsg (sentinel : String) : String :=
  "timeout waiting for exit code from " ++ sentinel
def pollCtxMsg : String := "context deadline exceeded"
def exitCodeMsg (code : Int) : String := "exit code " ++ toString code

/-- runInSession: inject the wrapped command, wait one settle tick,
then snapshot the pane.  sshExecWithOutput swallows every ssh failure
whose stdout is empty (its `strings.Contains(stderr, "")` check is
vacuously true), so an expired context does not surface here: the
failed send is reported as success and the failed capture returns an
empty snapshot; the expiry is detected later, by pollExitCode's
context check.  (The Go error branch for a send failure fires only
when the ssh process fails with non-empty stdout, which this
abstraction does not produce.) -/
def runInSession (budget : Nat) (pane : String) : Except String String :=
  if ctxExpired budget 1 then .ok "" else .ok pane

/-- strings.TrimSpace: drop leading and trailing whitespace. -/
def isSpaceChar (c : Char) : Bool :=
  c = ' ' || c = '\n' || c = '\t' || c = '\r'

def trimChars (s : List Char) : List Char :=
  ((s.dropWhile isSpaceChar).reverse.dropWhile isSpaceChar).reverse

/-- Digit accumulator of strconv.Atoi. -/
def parseDigitsAux : List Char → Nat → Option Nat
  | [], acc => some acc
  | c :: rest, acc =>
    if '0' ≤ c ∧ c ≤ '9' then
      parseDigitsAux rest (acc * 10 + (c.toNat - '0'.toNat))
    else none

/-- strconv.Atoi: optional sign, then decimal digits; empty input or
any non-digit is a parse error. -/
def parseAtoiChars : List Char → Option Int
  | [] => none
  | '-' :: rest =>
    if rest = [] then none
    else (parseDigitsAux rest 0).map (fun n => -(n : Int))
  | '+' :: rest =>
    if rest = [] then none
    else (parseDigitsAux rest 0).map (fun n => (n : Int))
  | cs => (parseDigitsAux cs 0).map (fun n => (n : Int))

/-- The polling loop of pollExitCode.  Attempt `i` happens after the
settle tick plus `i` poll sleeps; `rem` counts the remaining retries of
the maxRetries = 300 budget.  A read error, a not-yet-present (empty)
file, or unparseable content simply continues polling.  The exit code
is parsed with strconv.Atoi over the TrimSpace'd content. -/
def pollLoop (budget : Nat) (read : Nat → Option String) (sentinel : String) :
    Nat → Nat → Except String Int
  | _, 0 => .error (timeoutMsg sentinel)
  | i, rem + 1 =>
    if ctxExpired budget (1 + i) then .error pollCtxMsg
    else
      match read i with
      | some out =>
        if out ≠ "" then
          match parseAtoiChars (trimChars out.data) with
          | some code => .ok code
          | none => pollLoop budget read sentinel (i + 1) rem
        else pollLoop budget read sentinel (i + 1) rem
      | none => pollLoop budget read sentinel (i + 1) rem

/-- pollExitCode of the remote backend: at most 300 polls at the fixed
100ms interval, under the stage context's deadline. -/
def pollExitCode (budget : Nat) (read : Nat → Option String)
    (sentinel : String) : Except String Int :=
  pollLoop budget read sentinel 0 300

/-- RemoteExecutor.ExecuteStage: inject the wrapped command (which
writes its exit status into the sentinel file), poll the sentinel for
the exit code, and map exit code 0 to pass, anything else to fail with
the code recorded, a poll timeout to a distinct failure.  The wall-clock
duration field is abstracted to 0 here (no claim refers to it). -/
def remoteExecuteStage (nonce : Nat) (pane : String)
    (read : Nat → Option String) (stage : Stage) : Result :=
  let cmdStr := joinSpace stage.cmd
  let budget := remoteBudget stage
  match runInSession budget pane with
  | .error e =>
    { name := stage.name, command := cmdStr, status := "fail",
      duration := 0, output := "", cacheHit := false, error := some e }
  | .ok out =>
    match pollExitCode budget read (sentinelPath stage nonce) with
    | .error e =>
      { name := stage.name, command := cmdStr, status := "fail",
        duration := 0, output := out, cacheHit := false,
        error := some ("failed to get exit code: " ++ e) }
    | .ok code =>
      if code = 0 then
        { name := stage.name, command := cmdStr, status := "pass",
          duration := 0, output := out, cacheHit := false, error := none }
      else
        { name := stage.name, command := cmdStr, status := "fail",
          duration := 0, output := out, cacheHit := false,
          error := some (exitCodeMsg code) }

/-! ## Basic lemmas on the association-list model of Go maps -/

theorem lookupDep_setDep_self (deps : DepMap) (k v : String) :
    lookupDep (setDep deps k v) k = v := by
  induction deps with
  | nil => simp [setDep, lookupDep]
  | cons p rest ih =>
    by_cases h : p.1 = k
    · simp [setDep, h, lookupDep]
    · simp [setDep, h, lookupDep, ih]

theorem lookupDep_setDep_ne (deps : DepMap) (k v n : String) (h : k ≠ n) :
    lookupDep (setDep deps k v) n = lookupDep deps n := by
  induction deps with
  | nil => simp [setDep, lookupDep, h]
  | cons p rest ih =>
    by_cases hp : p.1 = k
    · simp [setDep, hp, lookupDep, h]
    · simp [setDep, hp, lookupDep, ih]

theorem lookupDep_ne_empty_mem (deps : DepMap) (n : String)
    (h : lookupDep deps n ≠ "") : n ∈ deps.map (fun p => p.1) := by
  induction deps with
  | nil => simp [lookupDep] at h
  | cons p rest ih =>
    by_cases hp : p.1 = n
    · simp [hp]
    · simp [lookupDep, hp] at h
      simp [ih h]

theorem lookupDep_ne_empty_val_mem (deps : DepMap) (n : String)
    (h : lookupDep deps n ≠ "") :
    lookupDep deps n ∈ deps.map (fun p => p.2) := by
  induction deps with
  | nil => simp [lookupDep] at h
  | cons p rest ih =>
    by_cases hp : p.1 = n
    · simp [lookupDep, hp]
    · simp [lookupDep, hp] at h ⊢
      simp [lookupDep, hp] at ih
      exact Or.inr (ih h)

theorem setDep_length (deps : DepMap) (k v : String) :
    (setDep deps k v).length = deps.length ∨
    (setDep deps k v).length = deps.length + 1 := by
  induction deps with
  | nil => simp [setDep]
  | cons p rest ih =>
    by_cases hp : p.1 = k
    · simp [setDep, hp]
    · rcases ih with h | h <;> simp [setDep, hp, h]

/-! ## Lemmas about the validation loop (collectDeps) -/

theorem collectDeps_lookup_not_mem (names : List String) :
    ∀ (stages : List Stage) (acc deps : DepMap) (n : String),
    collectDeps names stages acc = .ok deps → n ∉ stageNames stages →
    lookupDep deps n = lookupDep acc n := by
  intro stages
  induction stages with
  | nil =>
    intro acc deps n h _
    simp [collectDeps] at h
    rw [h]
  | cons s rest ih =>
    intro acc deps n h hn
    simp [stageNames] at hn
    by_cases hd : s.dependsOn = ""
    · simp [collectDeps, hd] at h
      exact ih acc deps n h (by simp [stageNames]; exact fun x hx => hn.2 x hx)
    · by_cases hm : s.dependsOn ∈ names
      · simp [collectDeps, hd, hm] at h
        rw [ih _ deps n h (by simp [stageNames]; exact fun x hx => hn.2 x hx)]
        exact lookupDep_setDep_ne acc s.name s.dependsOn n (fun he => hn.1 he.symm)
      · simp [collectDeps, hd, hm] at h

theorem collectDeps_lookup_mem (names : List String) :
    ∀ (stages : List Stage) (acc deps : DepMap) (s : Stage),
    collectDeps names stages acc = .ok deps →
    (stageNames stages).Nodup → s ∈ stages →
    (s.dependsOn ≠ "" → lookupDep deps s.name = s.dependsOn) ∧
    (s.dependsOn = "" → lookupDep deps s.name = lookupDep acc s.name) := by
  intro stages
  induction stages with
  | nil => intro acc deps s _ _ hs; simp at hs
  | cons t rest ih =>
    intro acc deps s h hnd hs
    have hnd' : (stageNames rest).Nodup := by
      simp [stageNames] at hnd ⊢; exact hnd.2
    have htn : t.name ∉ stageNames rest := by
      simp [stageNames] at hnd ⊢
      exact fun x hx he => hnd.1 x hx he
    rcases List.mem_cons.mp hs with hst | hsr
    · subst hst
      by_cases hd : s.dependsOn = ""
      · simp [collectDeps, hd] at h
        constructor
        · intro hc; exact absurd hd hc
        · intro _
          exact collectDeps_lookup_not_mem names rest acc deps s.name h htn
      · by_cases hm : s.dependsOn ∈ names
        · simp [collectDeps, hd, hm] at h
          constructor
          · intro _
            rw [collectDeps_lookup_not_mem names rest _ deps s.name h htn]
            exact lookupDep_setDep_self acc s.name s.dependsOn
          · intro hc; exact absurd hc hd
        · simp [collectDeps, hd, hm] at h
    · by_cases hd : t.dependsOn = ""
      · simp [collectDeps, hd] at h
        exact ih acc deps s h hnd' hsr
      · by_cases hm : t.dependsOn ∈ names
        · simp [collectDeps, hd, hm] at h
          have := ih _ deps s h hnd' hsr
          refine ⟨this.1, fun hc => ?_⟩
          rw [this.2 hc]
          have hne : t.name ≠ s.name := by
            intro he
            exact htn (by rw [he]; exact List.mem_map_of_mem _ hsr)
          exact lookupDep_setDep_ne acc t.name t.dependsOn s.name hne
        · simp [collectDeps, hd, hm] at h

theorem collectDeps_error_of_missing (names : List String) :
    ∀ (stages : List Stage) (acc : DepMap) (s : Stage),
    s ∈ stages → s.dependsOn ≠ "" → s.dependsOn ∉ names →
    ∃ t : Stage, t ∈ stages ∧ t.dependsOn ≠ "" ∧ t.dependsOn ∉ names ∧
      collectDeps names stages acc = .error (missingDepMsg t.name t.dependsOn) := by
  intro stages
  induction stages with
  | nil => intro acc s hs; simp at hs
  | cons t rest ih =>
    intro acc s hs hd hm
    by_cases htd : t.dependsOn = ""
    · rcases List.mem_cons.mp hs with hst | hsr
      · subst hst; exact absurd htd hd
      · rcases ih acc s hsr hd hm with ⟨u, hu, hu1, hu2, hu3⟩
        exact ⟨u, List.mem_cons_of_mem _ hu, hu1, hu2, by simp [collectDeps, htd, hu3]⟩
    · by_cases htm : t.dependsOn ∈ names
      · rcases List.mem_cons.mp hs with hst | hsr
        · subst hst; exact absurd htm hm
        · rcases ih (setDep acc t.name t.dependsOn) s hsr hd hm with ⟨u, hu, hu1, hu2, hu3⟩
          exact ⟨u, List.mem_cons_of_mem _ hu, hu1, hu2, by simp [collectDeps, htd, htm, hu3]⟩
      · exact ⟨t, List.mem_cons_self t rest, htd, htm, by simp [collectDeps, htd, htm]⟩

/-! ## Iterated dependency chains and cycles -/

/-- `iterDep f k n` follows the dependency function k steps from n. -/
def iterDep (f : String → String) : Nat → String → String
  | 0, n => n
  | k + 1, n => iterDep f k (f n)

/-- `n` lies on a dependency cycle: following the chain some positive
number of steps returns to `n`, through stages only (never through the
empty name, which marks "no dependency"). -/
def OnCycle (f : String → String) (n : String) : Prop :=
  ∃ k, 0 < k ∧ iterDep f k n = n ∧ ∀ j, j < k → iterDep f j n ≠ ""

/-- The dependency relation contains a cycle. -/
def HasCycle (f : String → String) : Prop := ∃ n, OnCycle f n

theorem iterDep_add (f : String → String) (a b : Nat) (n : String) :
    iterDep f (a + b) n = iterDep f b (iterDep f a n) := by
  induction a generalizing n with
  | zero => simp [iterDep]
  | succ a ih =>
    have : a + 1 + b = (a + b) + 1 := by omega
    rw [this]
    show iterDep f (a + b) (f n) = iterDep f b (iterDep f a (f n))
    exact ih (f n)

theorem iterDep_succ_right (f : String → String) (k : Nat) (n : String) :
    iterDep f (k + 1) n = f (iterDep f k n) := by
  rw [iterDep_add f k 1 n]
  rfl

theorem iterDep_mul_cycle (f : String → String) (k : Nat) (n : String)
    (h : iterDep f k n = n) : ∀ q, iterDep f (q * k) n = n := by
  intro q
  induction q with
  | zero => simp [iterDep]
  | succ q ih =>
    have : (q + 1) * k = q * k + k := by ring
    rw [this, iterDep_add, ih, h]

theorem iterDep_mod_cycle (f : String → String) (k : Nat) (n : String)
    (h : iterDep f k n = n) :
    ∀ j, iterDep f j n = iterDep f (j % k) n := by
  intro j
  conv_lhs => rw [show j = k * (j / k) + j % k from (Nat.div_add_mod j k).symm]
  rw [iterDep_add, show k * (j / k) = (j / k) * k from Nat.mul_comm _ _,
      iterDep_mul_cycle f k n h (j / k)]

/-- A node on a cycle never terminates: no iterate of it is "". -/
theorem OnCycle.iter_ne_empty {f : String → String} {n : String}
    (h : OnCycle f n) : ∀ j, iterDep f j n ≠ "" := by
  rcases h with ⟨k, hk, hcyc, hne⟩
  intro j
  rw [iterDep_mod_cycle f k n hcyc j]
  exact hne _ (Nat.mod_lt j hk)

/-- The dependency chain from `n` reaches "" (a stage with no
dependency, or a name outside the graph). -/
def Terminates (f : String → String) (n : String) : Prop :=
  ∃ j, iterDep f j n = ""

theorem OnCycle.not_terminates {f : String → String} {n : String}
    (h : OnCycle f n) : ¬ Terminates f n := by
  rintro ⟨j, hj⟩
  exact h.iter_ne_empty j hj

/-! ## Correctness of the cycle walk (walkChain / detectLoop) -/

/-- Any error produced by a walk names a stage that lies on a cycle.
The invariant: the walk's chain holds exactly the first `m` iterates of
the walk's start node, all non-empty, and `cur` is the m-th iterate. -/
theorem walkChain_some_cycle (f : String → String) :
    ∀ (fuel : Nat) (chain visited : List String) (start cur : String) (m : Nat),
    cur = iterDep f m start →
    (∀ x ∈ chain, ∃ j, j < m ∧ x = iterDep f j start) →
    (∀ j, j < m → iterDep f j start ∈ chain ∧ iterDep f j start ≠ "") →
    ∀ (e : String) (vis : List String),
    walkChain f fuel chain visited cur = (some e, vis) →
    ∃ c, e = cycleMsg c ∧ OnCycle f c := by
  intro fuel
  induction fuel with
  | zero =>
    intro chain visited start cur m _ _ _ e vis h
    simp [walkChain] at h
  | succ fuel ih =>
    intro chain visited start cur m hcur hchain hfull e vis h
    by_cases hc0 : cur = ""
    · simp [walkChain, hc0] at h
    · by_cases hcc : cur ∈ chain
      · simp [walkChain, hc0, hcc] at h
        refine ⟨cur, h.1.symm, ?_⟩
        rcases hchain cur hcc with ⟨j, hj, hjx⟩
        refine ⟨m - j, by omega, ?_, ?_⟩
        · have hsplit : j + (m - j) = m := by omega
          calc iterDep f (m - j) cur = iterDep f (m - j) (iterDep f j start) := by
                rw [← hjx]
            _ = iterDep f (j + (m - j)) start := (iterDep_add f j (m - j) start).symm
            _ = iterDep f m start := by rw [hsplit]
            _ = cur := hcur.symm
        · intro i hi
          have : iterDep f i cur = iterDep f (j + i) start := by
            rw [hjx, ← iterDep_add]
          rw [this]
          exact (hfull (j + i) (by omega)).2
      · simp only [walkChain, if_neg hc0, if_neg (by simpa using hcc)] at h
        refine ih (cur :: chain) (cur :: visited) start (f cur) (m + 1) ?_ ?_ ?_ e vis h
        · rw [iterDep_succ_right, ← hcur]
        · intro x hx
          rcases List.mem_cons.mp hx with hx | hx
          · exact ⟨m, by omega, by rw [hx, hcur]⟩
          · rcases hchain x hx with ⟨j, hj, hjx⟩
            exact ⟨j, by omega, hjx⟩
        · intro j hj
          by_cases hjm : j < m
          · rcases hfull j hjm with ⟨h1, h2⟩
            exact ⟨List.mem_cons_of_mem _ h1, h2⟩
          · have : j = m := by omega
            subst this
            exact ⟨by rw [← hcur]; exact List.mem_cons_self _ _, by rw [← hcur]; exact hc0⟩

/-- With adequate fuel, a walk that returns no error started from a
terminating node, and every node it adds to the visited set terminates.
`S` is a finite over-approximation of the nodes the walk can push. -/
theorem walkChain_none_spec (f : String → String) (S : Finset String)
    (hstep : ∀ x, f x ≠ "" → f x ∈ S) :
    ∀ (fuel : Nat) (chain visited : List String) (cur : String),
    (∀ x ∈ chain, x ∈ S) → (cur ∈ S ∨ cur = "") →
    S.card + 1 ≤ fuel + chain.toFinset.card →
    ∀ vis, walkChain f fuel chain visited cur = (none, vis) →
    Terminates f cur ∧ ∀ x ∈ vis, x ∈ visited ∨ Terminates f x := by
  intro fuel
  induction fuel with
  | zero =>
    intro chain visited cur hchain _ hfuel vis _
    exfalso
    have hsub : chain.toFinset ⊆ S := by
      intro x hx
      exact hchain x (List.mem_toFinset.mp hx)
    have := Finset.card_le_card hsub
    omega
  | succ fuel ih =>
    intro chain visited cur hchain hcur hfuel vis h
    by_cases hc0 : cur = ""
    · simp [walkChain, hc0] at h
      refine ⟨⟨0, hc0⟩, ?_⟩
      intro x hx
      rw [← h] at hx
      exact Or.inl hx
    · by_cases hcc : cur ∈ chain
      · simp [walkChain, hc0, hcc] at h
      · simp only [walkChain, if_neg hc0, if_neg (by simpa using hcc)] at h
        have hcurS : cur ∈ S := by
          rcases hcur with h1 | h1
          · exact h1
          · exact absurd h1 hc0
        have hfuel' : S.card + 1 ≤ fuel + (cur :: chain).toFinset.card := by
          have hnotin : cur ∉ chain.toFinset := fun hx => hcc (List.mem_toFinset.mp hx)
          have : (cur :: chain).toFinset.card = chain.toFinset.card + 1 := by
            simp [List.toFinset_cons, Finset.card_insert_of_not_mem hnotin]
          omega
        have hrec := ih (cur :: chain) (cur :: visited) (f cur)
          (by
            intro x hx
            rcases List.mem_cons.mp hx with hx | hx
            · rw [hx]; exact hcurS
            · exact hchain x hx)
          (by
            by_cases hf : f cur = ""
            · exact Or.inr hf
            · exact Or.inl (hstep cur hf))
          hfuel' vis h
        refine ⟨?_, ?_⟩
        · rcases hrec.1 with ⟨j, hj⟩
          exact ⟨j + 1, by rw [show iterDep f (j + 1) cur = iterDep f j (f cur) from rfl]; exact hj⟩
        · intro x hx
          rcases hrec.2 x hx with h1 | h1
          · rcases List.mem_cons.mp h1 with h2 | h2
            · rw [h2]
              right
              rcases hrec.1 with ⟨j, hj⟩
              exact ⟨j + 1, by rw [show iterDep f (j + 1) cur = iterDep f j (f cur) from rfl]; exact hj⟩
            · exact Or.inl h2
          · exact Or.inr h1

theorem detectLoop_some_cycle (f : String → String) (fuel : Nat) :
    ∀ (keys visited : List String) (e : String),
    detectLoop f fuel keys visited = some e →
    ∃ c, e = cycleMsg c ∧ OnCycle f c := by
  intro keys
  induction keys with
  | nil => intro visited e h; simp [detectLoop] at h
  | cons n rest ih =>
    intro visited e h
    by_cases hv : n ∈ visited
    · simp [detectLoop, hv] at h
      exact ih visited e h
    · rcases hw : walkChain f fuel [] visited n with ⟨oe, vis⟩
      simp only [detectLoop, if_neg hv, hw] at h
      cases oe with
      | some e' =>
        simp at h
        rw [← h]
        exact walkChain_some_cycle f fuel [] visited n n 0 rfl
          (by intro x hx; simp at hx) (by intro j hj; omega) e' vis hw
      | none =>
        simp at h
        exact ih vis e h

theorem detectLoop_finds_cycle (deps : DepMap) (fuel : Nat)
    (hfuel : deps.length + 2 ≤ fuel) :
    ∀ (keys visited : List String) (n0 : String),
    n0 ∈ keys → OnCycle (lookupDep deps) n0 →
    (∀ x ∈ visited, Terminates (lookupDep deps) x) →
    ∃ e, detectLoop (lookupDep deps) fuel keys visited = some e := by
  intro keys
  induction keys with
  | nil => intro visited n0 h0; simp at h0
  | cons n rest ih =>
    intro visited n0 h0 hcyc hvis
    by_cases hv : n ∈ visited
    · have hne : n0 ≠ n := by
        intro he
        exact hcyc.not_terminates (he ▸ hvis n hv)
      have h0' : n0 ∈ rest := by
        rcases List.mem_cons.mp h0 with h1 | h1
        · exact absurd h1 hne
        · exact h1
      rcases ih visited n0 h0' hcyc hvis with ⟨e, he⟩
      exact ⟨e, by simp [detectLoop, hv, he]⟩
    · rcases hw : walkChain (lookupDep deps) fuel [] visited n with ⟨oe, vis⟩
      cases oe with
      | some e' =>
        exact ⟨e', by simp only [detectLoop, if_neg hv, hw]⟩
      | none =>
        have hspec := walkChain_none_spec (lookupDep deps)
          (insert n ((deps.map (fun p => p.2)).toFinset))
          (by
            intro x hx
            exact Finset.mem_insert_of_mem
              (List.mem_toFinset.mpr (lookupDep_ne_empty_val_mem deps x hx)))
          fuel [] visited n (by intro x hx; simp at hx) (Or.inl (Finset.mem_insert_self _ _))
          (by
            have h1 : ((deps.map (fun p => p.2)).toFinset).card ≤ deps.length := by
              calc ((deps.map (fun p => p.2)).toFinset).card
                  ≤ (deps.map (fun p => p.2)).length := (deps.map (fun p => p.2)).toFinset_card_le
                _ = deps.length := List.length_map _ _
            have h2 := Finset.card_insert_le n ((deps.map (fun p => p.2)).toFinset)
            simp
            omega)
          vis hw
        have hne : n0 ≠ n := by
          intro he
          exact hcyc.not_terminates (he ▸ hspec.1)
        have h0' : n0 ∈ rest := by
          rcases List.mem_cons.mp h0 with h1 | h1
          · exact absurd h1 hne
          · exact h1
        have hvis' : ∀ x ∈ vis, Terminates (lookupDep deps) x := by
          intro x hx
          rcases hspec.2 x hx with h1 | h1
          · exact hvis x h1
          · exact h1
        rcases ih vis n0 h0' hcyc hvis' with ⟨e, he⟩
        exact ⟨e, by simp only [detectLoop, if_neg hv, hw, he]⟩

/-- detectCycles reports an error whenever the dependency relation has a
cycle. -/
theorem detectCycles_eq_some (deps : DepMap)
    (h : HasCycle (lookupDep deps)) : ∃ e, detectCycles deps = some e := by
  rcases h with ⟨n0, hn0⟩
  have hf : lookupDep deps n0 ≠ "" := hn0.iter_ne_empty 1
  have hkey : n0 ∈ deps.map (fun p => p.1) := lookupDep_ne_empty_mem deps n0 hf
  exact detectLoop_finds_cycle deps (deps.length + 2) (by omega)
    (deps.map (fun p => p.1)) [] n0 hkey hn0 (by intro x hx; simp at hx)

/-- Any error reported by detectCycles names a stage on a cycle. -/
theorem detectCycles_some_cycle (deps : DepMap) (e : String)
    (h : detectCycles deps = some e) :
    ∃ c, e = cycleMsg c ∧ OnCycle (lookupDep deps) c := by
  have h' : detectLoop (lookupDep deps) (deps.length + 2)
      (deps.map (fun p => p.1)) [] = some e := h
  exact detectLoop_some_cycle (lookupDep deps) (deps.length + 2)
    (deps.map (fun p => p.1)) [] e h'

/-- If detectCycles reports no error, the dependency relation is
acyclic. -/
theorem detectCycles_none_no_cycle (deps : DepMap)
    (h : detectCycles deps = none) : ¬ HasCycle (lookupDep deps) := by
  intro hc
  rcases detectCycles_eq_some deps hc with ⟨e, he⟩
  rw [h] at he
  exact Option.noConfusion he

/-! ## Layer computation under acyclicity -/

/-- A repeated iterate along a chain of non-empty nodes witnesses a
cycle. -/
theorem cycle_of_iter_eq (f : String → String) (n : String) (N : Nat)
    (hne : ∀ m, 1 ≤ m → m ≤ N → iterDep f m n ≠ "")
    (a b : Nat) (hab : a < b) (hbN : b ≤ N)
    (heq : iterDep f a n = iterDep f b n) : HasCycle f := by
  refine ⟨iterDep f a n, b - a, by omega, ?_, ?_⟩
  · have : a + (b - a) = b := by omega
    rw [← iterDep_add, this, heq]
  · intro i hi
    rw [← iterDep_add]
    by_cases h0 : a + i = 0
    · rw [h0]
      show n ≠ ""
      have ha0 : a = 0 := by omega
      subst ha0
      simp only [iterDep] at heq
      rw [heq]
      exact hne b (by omega) hbN
    · exact hne (a + i) (by omega) (by omega)

/-- In an acyclic graph every chain reaches a node with no dependency
within deps.length steps (pigeonhole over the key set). -/
theorem acyclic_terminates (deps : DepMap)
    (h : ¬ HasCycle (lookupDep deps)) (n : String) :
    ∃ j, j ≤ deps.length ∧
      lookupDep deps (iterDep (lookupDep deps) j n) = "" := by
  by_contra hno
  push_neg at hno
  have hne : ∀ m, 1 ≤ m → m ≤ deps.length + 1 →
      iterDep (lookupDep deps) m n ≠ "" := by
    intro m h1 h2
    have hm : iterDep (lookupDep deps) m n =
        lookupDep deps (iterDep (lookupDep deps) (m - 1) n) := by
      rw [← iterDep_succ_right (lookupDep deps) (m - 1) n]
      congr 1
      omega
    rw [hm]
    exact hno (m - 1) (by omega)
  have hkeys : ∀ j ∈ Finset.range (deps.length + 1),
      iterDep (lookupDep deps) j n ∈ (deps.map (fun p => p.1)).toFinset := by
    intro j hj
    simp only [Finset.mem_range] at hj
    exact List.mem_toFinset.mpr
      (lookupDep_ne_empty_mem deps _ (hno j (by omega)))
  have hcard : ((deps.map (fun p => p.1)).toFinset).card <
      (Finset.range (deps.length + 1)).card := by
    have h1 : ((deps.map (fun p => p.1)).toFinset).card ≤ deps.length := by
      calc ((deps.map (fun p => p.1)).toFinset).card
          ≤ (deps.map (fun p => p.1)).length :=
            (deps.map (fun p => p.1)).toFinset_card_le
        _ = deps.length := List.length_map _ _
    rw [Finset.card_range]
    omega
  rcases Finset.exists_ne_map_eq_of_card_lt_of_maps_to hcard hkeys with
    ⟨a, ha, b, hb, hab, heq⟩
  simp only [Finset.mem_range] at ha hb
  rcases Nat.lt_or_ge a b with hlt | hge
  · exact h (cycle_of_iter_eq (lookupDep deps) n (deps.length + 1) hne
      a b hlt (by omega) heq)
  · have hba : b < a := by omega
    exact h (cycle_of_iter_eq (lookupDep deps) n (deps.length + 1) hne
      b a hba (by omega) heq.symm)

/-- Once the chain from n dies out within the fuel, getLayer's value no
longer depends on the fuel. -/
theorem getLayer_stable (f : String → String) :
    ∀ (j : Nat) (n : String), f (iterDep f j n) = "" →
    ∀ fuel1 fuel2, j < fuel1 → j < fuel2 →
    getLayer f fuel1 n = getLayer f fuel2 n := by
  intro j
  induction j with
  | zero =>
    intro n h fuel1 fuel2 h1 h2
    match fuel1, fuel2 with
    | f1 + 1, f2 + 1 =>
      simp only [iterDep] at h
      simp [getLayer, h]
  | succ j ih =>
    intro n h fuel1 fuel2 h1 h2
    match fuel1, fuel2 with
    | f1 + 1, f2 + 1 =>
      by_cases hn : f n = ""
      · simp [getLayer, hn]
      · simp only [getLayer, if_neg hn]
        have hrec : f (iterDep f j (f n)) = "" := h
        rw [ih (f n) hrec f1 f2 (by omega) (by omega)]

/-- The layer of a stage with a dependency is one more than the layer of
the stage it depends on (acyclic case, with resolveOrder's fuel). -/
theorem getLayer_succ_edge (deps : DepMap) (h : ¬ HasCycle (lookupDep deps))
    (n : String) (hne : lookupDep deps n ≠ "") :
    getLayer (lookupDep deps) (layerFuel deps) n =
    getLayer (lookupDep deps) (layerFuel deps) (lookupDep deps n) + 1 := by
  have hlen : 1 ≤ deps.length := by
    have := lookupDep_ne_empty_mem deps n hne
    cases deps with
    | nil => simp at this
    | cons p rest => simp
  rcases acyclic_terminates deps h n with ⟨j, hjL, hj⟩
  have hj1 : 1 ≤ j := by
    rcases Nat.eq_zero_or_pos j with h0 | h0
    · rw [h0] at hj
      simp only [iterDep] at hj
      exact absurd hj hne
    · exact h0
  show getLayer (lookupDep deps) (deps.length + 1) n = _
  have hstep : getLayer (lookupDep deps) (deps.length + 1) n =
      getLayer (lookupDep deps) deps.length (lookupDep deps n) + 1 := by
    simp [getLayer, hne]
  rw [hstep]
  congr 1
  have hj' : lookupDep deps
      (iterDep (lookupDep deps) (j - 1) (lookupDep deps n)) = "" := by
    have : iterDep (lookupDep deps) (j - 1) (lookupDep deps n) =
        iterDep (lookupDep deps) j n := by
      have : j = (j - 1) + 1 := by omega
      rw [this]
      rfl
    rw [this]
    exact hj
  exact getLayer_stable (lookupDep deps) (j - 1) (lookupDep deps n) hj'
    deps.length (deps.length + 1) (by omega) (by omega)

/-- A transitive dependency path from a to b: following dependsOn links
k > 0 steps reaches b, each hop through an actual stage. -/
def DepPath (f : String → String) (a b : String) : Prop :=
  ∃ k, 0 < k ∧ iterDep f k a = b ∧
    ∀ i, 1 ≤ i → i ≤ k → iterDep f i a ≠ ""

/-- Layers strictly increase along dependency paths. -/
theorem DepPath_layer_add (deps : DepMap) (h : ¬ HasCycle (lookupDep deps)) :
    ∀ (k : Nat), 0 < k → ∀ (a b : String), iterDep (lookupDep deps) k a = b →
    (∀ i, 1 ≤ i → i ≤ k → iterDep (lookupDep deps) i a ≠ "") →
    getLayer (lookupDep deps) (layerFuel deps) a =
      k + getLayer (lookupDep deps) (layerFuel deps) b := by
  intro k
  induction k with
  | zero => intro h0; omega
  | succ k ih =>
    intro _ a b hit hall
    have hfa : lookupDep deps a ≠ "" := by
      have := hall 1 (by omega) (by omega)
      simpa [iterDep_succ_right, iterDep] using this
    rcases Nat.eq_zero_or_pos k with hk0 | hkpos
    · subst hk0
      have hb : lookupDep deps a = b := by
        simpa [iterDep] using hit
      rw [getLayer_succ_edge deps h a hfa, hb]
      omega
    · have hit' : iterDep (lookupDep deps) k (lookupDep deps a) = b := hit
      have hall' : ∀ i, 1 ≤ i → i ≤ k →
          iterDep (lookupDep deps) i (lookupDep deps a) ≠ "" := by
        intro i h1 h2
        have := hall (i + 1) (by omega) (by omega)
        exact this
      rw [getLayer_succ_edge deps h a hfa, ih hkpos (lookupDep deps a) b hit' hall']
      omega

theorem DepPath_layer_lt (deps : DepMap) (h : ¬ HasCycle (lookupDep deps))
    (a b : String) (hp : DepPath (lookupDep deps) a b) :
    getLayer (lookupDep deps) (layerFuel deps) b <
    getLayer (lookupDep deps) (layerFuel deps) a := by
  rcases hp with ⟨k, hk, hit, hall⟩
  rw [DepPath_layer_add deps h k hk a b hit hall]
  omega

/-! ## The layer partition (mkLayers) -/

theorem foldl_max_ge_init (f : String → String) (fl : Nat) :
    ∀ (l : List Stage) (init : Nat),
    init ≤ l.foldl (fun m s => max m (getLayer f fl s.name)) init := by
  intro l
  induction l with
  | nil => intro init; simp
  | cons s rest ih =>
    intro init
    calc init ≤ max init (getLayer f fl s.name) := Nat.le_max_left _ _
      _ ≤ rest.foldl (fun m s => max m (getLayer f fl s.name))
            (max init (getLayer f fl s.name)) := ih _

theorem foldl_max_ge_mem (f : String → String) (fl : Nat) :
    ∀ (l : List Stage) (init : Nat) (s : Stage), s ∈ l →
    getLayer f fl s.name ≤ l.foldl (fun m s => max m (getLayer f fl s.name)) init := by
  intro l
  induction l with
  | nil => intro init s hs; simp at hs
  | cons t rest ih =>
    intro init s hs
    rcases List.mem_cons.mp hs with h1 | h1
    · subst h1
      calc getLayer f fl s.name ≤ max init (getLayer f fl s.name) :=
            Nat.le_max_right _ _
        _ ≤ rest.foldl (fun m u => max m (getLayer f fl u.name))
              (max init (getLayer f fl s.name)) := foldl_max_ge_init f fl rest _
    · exact ih _ s h1

theorem mkLayers_length (stages : List Stage) (f : String → String) (fl : Nat) :
    (mkLayers stages f fl).length =
    stages.foldl (fun m s => max m (getLayer f fl s.name)) 0 + 1 := by
  simp [mkLayers]

theorem getD_map_range {α : Type} (k : Nat) (h : Nat → α) (l : Nat) (d : α) :
    ((List.range k).map h).getD l d = if l < k then h l else d := by
  by_cases hl : l < k
  · simp [List.getD, hl, List.getElem?_map, List.getElem?_range hl]
  · have : k ≤ l := by omega
    simp [List.getD, hl, List.getElem?_map]
    rw [List.getElem?_eq_none (by simpa using this)]
    rfl

/-- Membership in layer l of mkLayers: exactly the stages whose computed
layer is l, for l below the layer count. -/
theorem mem_mkLayers_iff (stages : List Stage) (f : String → String)
    (fl : Nat) (s : Stage) (l : Nat) :
    s ∈ (mkLayers stages f fl).getD l [] ↔
    (s ∈ stages ∧ getLayer f fl s.name = l ∧ l < (mkLayers stages f fl).length) := by
  rw [mkLayers_length]
  simp only [mkLayers]
  rw [getD_map_range]
  by_cases hl : l < stages.foldl (fun m s => max m (getLayer f fl s.name)) 0 + 1
  · simp only [if_pos hl, List.mem_filter]
    constructor
    · rintro ⟨h1, h2⟩
      simp at h2
      exact ⟨h1, h2, hl⟩
    · rintro ⟨h1, h2, _⟩
      exact ⟨h1, by simp [h2]⟩
  · simp only [if_neg hl]
    simp only [List.not_mem_nil, false_iff]
    rintro ⟨_, _, h3⟩
    exact hl h3

/-- Every stage is in some layer (its computed layer is within bounds). -/
theorem mem_mkLayers_self (stages : List Stage) (f : String → String)
    (fl : Nat) (s : Stage) (hs : s ∈ stages) :
    s ∈ (mkLayers stages f fl).getD (getLayer f fl s.name) [] := by
  rw [mem_mkLayers_iff]
  refine ⟨hs, rfl, ?_⟩
  rw [mkLayers_length]
  have := foldl_max_ge_mem f fl stages 0 s hs
  omega

theorem count_filter_eq {α : Type} [DecidableEq α] (p : α → Bool) (a : α) :
    ∀ l : List α, (l.filter p).count a = if p a then l.count a else 0 := by
  intro l
  induction l with
  | nil => simp
  | cons x rest ih =>
    by_cases hx : p x = true
    · rw [List.filter_cons_of_pos hx]
      by_cases hpa : p a = true
      · simp only [List.count_cons, ih, hpa, if_true]
      · have hxa : ¬ (x = a) := fun h => hpa (h ▸ hx)
        simp only [List.count_cons, ih, hpa, if_false]
        simp [hxa]
    · rw [List.filter_cons_of_neg hx]
      rw [ih]
      by_cases hpa : p a = true
      · have hxa : ¬ (x = a) := fun h => hx (h ▸ hpa)
        simp [hpa, List.count_cons, hxa]
      · simp [hpa]

theorem sum_map_range_ite (g : Nat) (c : Nat) :
    ∀ k : Nat, (((List.range k).map (fun l => if g = l then c else 0)).sum) =
      if g < k then c else 0 := by
  intro k
  induction k with
  | zero => simp
  | succ k ih =>
    rw [List.range_succ, List.map_append, List.sum_append, ih]
    simp only [List.map_cons, List.map_nil, List.sum_cons, List.sum_nil]
    by_cases he : g = k
    · subst he
      simp
    · by_cases hg : g < k
      · have h1 : g < k + 1 := by omega
        simp [hg, he, h1]
      · have h1 : ¬ g < k + 1 := by omega
        simp [hg, he, h1]

/-- The concatenation of the layers is a permutation of the stage list:
every stage occurrence lands in exactly one layer. -/
theorem mkLayers_flatten_perm (stages : List Stage) (f : String → String)
    (fl : Nat) : ((mkLayers stages f fl).flatten).Perm stages := by
  rw [List.perm_iff_count]
  intro s
  simp only [mkLayers, List.count_flatten, List.map_map, Function.comp_def]
  have hcomp : ∀ l : Nat,
      ((stages.filter (fun t => getLayer f fl t.name == l)).count s) =
      if getLayer f fl s.name = l then stages.count s else 0 := by
    intro l
    rw [count_filter_eq]
    by_cases h : getLayer f fl s.name = l
    · simp [h]
    · simp [h]
  have hmap : (List.range (stages.foldl (fun m s => max m (getLayer f fl s.name)) 0 + 1)).map
        ((fun l => List.count s (List.filter (fun s => getLayer f fl s.name == l) stages))) =
      (List.range (stages.foldl (fun m s => max m (getLayer f fl s.name)) 0 + 1)).map
        (fun l => if getLayer f fl s.name = l then stages.count s else 0) :=
    List.map_congr_left (fun l _ => hcomp l)
  rw [hmap, sum_map_range_ite]
  by_cases hs : s ∈ stages
  · have hle := foldl_max_ge_mem f fl stages 0 s hs
    have hlt : getLayer f fl s.name <
        stages.foldl (fun m t => max m (getLayer f fl t.name)) 0 + 1 := by omega
    rw [if_pos hlt]
  · have h0 : stages.count s = 0 := List.count_eq_zero.mpr hs
    rw [h0]
    simp

/-! ## Assembled facts about buildDepGraph and resolveOrder -/

theorem buildDepGraph_ok_elim (stages : List Stage) (deps : DepMap)
    (h : buildDepGraph stages = .ok deps) :
    collectDeps (stageNames stages) stages [] = .ok deps ∧
    detectCycles deps = none := by
  unfold buildDepGraph at h
  cases hc : collectDeps (stageNames stages) stages [] with
  | error e => rw [hc] at h; simp at h
  | ok d =>
    rw [hc] at h
    cases hd : detectCycles d with
    | some e => simp [hd] at h
    | none =>
      simp [hd] at h
      subst h
      exact ⟨rfl, hd⟩

/-- With unique stage names, the built graph maps each stage name to its
declared dependency (or "" for none). -/
theorem buildDep_lookup_name (stages : List Stage) (deps : DepMap)
    (hnd : (stageNames stages).Nodup)
    (h : buildDepGraph stages = .ok deps) (s : Stage) (hs : s ∈ stages) :
    lookupDep deps s.name = s.dependsOn := by
  rcases buildDepGraph_ok_elim stages deps h with ⟨hc, _⟩
  rcases collectDeps_lookup_mem (stageNames stages) stages [] deps s hc hnd hs with
    ⟨h1, h2⟩
  by_cases hd : s.dependsOn = ""
  · rw [h2 hd, hd]
    rfl
  · exact h1 hd

theorem buildDepGraph_ok_acyclic (stages : List Stage) (deps : DepMap)
    (h : buildDepGraph stages = .ok deps) : ¬ HasCycle (lookupDep deps) :=
  detectCycles_none_no_cycle deps (buildDepGraph_ok_elim stages deps h).2

theorem resolveOrder_ok_elim (stages : List Stage) (layers : List (List Stage))
    (h : resolveOrder stages = .ok layers) :
    ∃ deps, buildDepGraph stages = .ok deps ∧
      layers = mkLayers stages (lookupDep deps) (layerFuel deps) := by
  unfold resolveOrder at h
  cases hb : buildDepGraph stages with
  | error e => rw [hb] at h; simp at h
  | ok deps =>
    rw [hb] at h
    simp at h
    exact ⟨deps, rfl, h.symm⟩

theorem resolveOrder_error_of_build_error (stages : List Stage) (e : String)
    (h : buildDepGraph stages = .error e) : resolveOrder stages = .error e := by
  unfold resolveOrder
  rw [h]

/-- The chain-length reading of getLayer: under acyclicity, a stage's
layer index is exactly the number of dependsOn hops from it to a stage
with no dependency. -/
theorem getLayer_chain_char (deps : DepMap) (h : ¬ HasCycle (lookupDep deps)) :
    ∀ (g : Nat) (n : String),
    getLayer (lookupDep deps) (layerFuel deps) n = g →
    lookupDep deps (iterDep (lookupDep deps) g n) = "" ∧
    ∀ j, j < g → lookupDep deps (iterDep (lookupDep deps) j n) ≠ "" := by
  intro g
  induction g using Nat.strong_induction_on with
  | _ g ih =>
    intro n hg
    by_cases hn : lookupDep deps n = ""
    · have h0 : getLayer (lookupDep deps) (layerFuel deps) n = 0 := by
        show getLayer (lookupDep deps) (deps.length + 1) n = 0
        simp [getLayer, hn]
      rw [h0] at hg
      subst hg
      exact ⟨hn, by intro j hj; omega⟩
    · have hsucc := getLayer_succ_edge deps h n hn
      rw [hsucc] at hg
      have hgpos : 1 ≤ g := by omega
      have hpred : getLayer (lookupDep deps) (layerFuel deps) (lookupDep deps n) =
          g - 1 := by omega
      rcases ih (g - 1) (by omega) (lookupDep deps n) hpred with ⟨hch1, hch2⟩
      constructor
      · have : iterDep (lookupDep deps) g n =
            iterDep (lookupDep deps) (g - 1) (lookupDep deps n) := by
          have hg' : g = (g - 1) + 1 := by omega
          rw [hg']
          rfl
        rw [this]
        exact hch1
      · intro j hj
        rcases Nat.eq_zero_or_pos j with hj0 | hjpos
        · subst hj0
          exact hn
        · have : iterDep (lookupDep deps) j n =
              iterDep (lookupDep deps) (j - 1) (lookupDep deps n) := by
            have hj' : j = (j - 1) + 1 := by omega
            rw [hj']
            rfl
          rw [this]
          exact hch2 (j - 1) (by omega)

/-! ## Scheduler lemmas -/

theorem runLayers_eq_map (exec : Stage → Result) (failFast : Bool) :
    ∀ layers : List (List Stage),
    runLayers exec failFast layers = (executedStages exec failFast layers).map exec := by
  intro layers
  induction layers with
  | nil => rfl
  | cons layer rest ih =>
    by_cases hf : failFast && anyFailed (layer.map exec)
    · simp [runLayers, executedStages, hf]
    · simp only [runLayers, executedStages, hf, if_neg, Bool.false_eq_true,
        not_false_eq_true, if_false]
      rw [List.map_append, ih]

theorem runLayers_no_failFast (exec : Stage → Result) :
    ∀ layers : List (List Stage),
    runLayers exec false layers = (layers.flatten).map exec := by
  intro layers
  induction layers with
  | nil => rfl
  | cons layer rest ih =>
    simp [runLayers, ih, List.flatten]

/-- With fail-fast, the dispatched stages are the whole layers up to and
including the first failing layer (all layers when none fails). -/
theorem executedStages_failFast_structure (exec : Stage → Result) :
    ∀ layers : List (List Stage),
    ((∀ l ∈ layers, anyFailed (l.map exec) = false) ∧
      executedStages exec true layers = layers.flatten) ∨
    (∃ k, k < layers.length ∧ anyFailed ((layers.getD k []).map exec) = true ∧
      (∀ j, j < k → anyFailed ((layers.getD j []).map exec) = false) ∧
      executedStages exec true layers = (layers.take (k + 1)).flatten) := by
  intro layers
  induction layers with
  | nil => exact Or.inl ⟨by intro l hl; simp at hl, rfl⟩
  | cons layer rest ih =>
    by_cases hf : anyFailed (layer.map exec) = true
    · refine Or.inr ⟨0, by simp, by simpa using hf, by intro j hj; omega, ?_⟩
      simp [executedStages, hf, List.flatten]
    · have hf' : anyFailed (layer.map exec) = false := by
        simpa using hf
      rcases ih with ⟨hall, hexec⟩ | ⟨k, hk, hkf, hkpre, hexec⟩
      · refine Or.inl ⟨?_, ?_⟩
        · intro l hl
          rcases List.mem_cons.mp hl with h1 | h1
          · rw [h1]; exact hf'
          · exact hall l h1
        · simp [executedStages, hf', hexec, List.flatten]
      · refine Or.inr ⟨k + 1, ?_, ?_, ?_, ?_⟩
        · simp only [List.length_cons]
          omega
        · show anyFailed (((layer :: rest).getD (k + 1) []).map exec) = true
          have hgd : (layer :: rest).getD (k + 1) [] = rest.getD k [] := rfl
          rw [hgd]
          exact hkf
        · intro j hj
          rcases Nat.eq_zero_or_pos j with hj0 | hjpos
          · subst hj0
            exact hf'
          · have hjk : j - 1 < k := by omega
            have hgd : (layer :: rest).getD j [] = rest.getD (j - 1) [] := by
              have hj' : j = (j - 1) + 1 := by omega
              rw [hj']
              rfl
            rw [hgd]
            exact hkpre (j - 1) hjk
        · show executedStages exec true (layer :: rest) =
            ((layer :: rest).take (k + 1 + 1)).flatten
          have h1 : executedStages exec true (layer :: rest) =
              layer ++ executedStages exec true rest := by
            simp [executedStages, hf']
          rw [h1, hexec]
          rfl

/-- Membership in the concatenation of the first m layers. -/
theorem mem_flatten_take {α : Type} :
    ∀ (L : List (List α)) (m : Nat) (x : α),
    x ∈ ((L.take m).flatten) ↔ ∃ j, j < m ∧ j < L.length ∧ x ∈ L.getD j [] := by
  intro L
  induction L with
  | nil =>
    intro m x
    simp
  | cons l rest ih =>
    intro m x
    cases m with
    | zero => simp
    | succ m =>
      simp only [List.take_cons, List.flatten, List.mem_append]
      rw [ih]
      constructor
      · rintro (h1 | ⟨j, hj1, hj2, hj3⟩)
        · exact ⟨0, by omega, by simp, by simpa using h1⟩
        · exact ⟨j + 1, by omega, by simp; omega, by simpa using hj3⟩
      · rintro ⟨j, hj1, hj2, hj3⟩
        cases j with
        | zero => exact Or.inl (by simpa using hj3)
        | succ j =>
          refine Or.inr ⟨j, by omega, by simp at hj2; omega, by simpa using hj3⟩

theorem mem_flatten_getD {α : Type} (L : List (List α)) (x : α) :
    x ∈ L.flatten ↔ ∃ j, j < L.length ∧ x ∈ L.getD j [] := by
  have := mem_flatten_take L L.length x
  rw [List.take_length] at this
  rw [this]
  constructor
  · rintro ⟨j, _, hj2, hj3⟩
    exact ⟨j, hj2, hj3⟩
  · rintro ⟨j, hj1, hj2⟩
    exact ⟨j, hj1, hj1, hj2⟩

/-! ## Helpers for validateStageCommands and executeStage -/

theorem validateStageCommands_ok_nonempty (inPath : String → Bool) :
    ∀ (stages : List Stage) (seen : List String),
    validateStageCommands inPath stages seen = .ok () →
    ∀ s ∈ stages, s.cmd ≠ [] := by
  intro stages
  induction stages with
  | nil => intro seen _ s hs; simp at hs
  | cons t rest ih =>
    intro seen h s hs
    cases hcmd : t.cmd with
    | nil => simp [validateStageCommands, hcmd] at h
    | cons c args =>
      rcases List.mem_cons.mp hs with h1 | h1
      · subst h1
        simp [hcmd]
      · by_cases hseen : c ∈ seen
        · simp [validateStageCommands, hcmd, hseen] at h
          exact ih seen h s h1
        · by_cases hp : inPath c = true
          · simp [validateStageCommands, hcmd, hseen, hp] at h
            exact ih (c :: seen) h s h1
          · simp [validateStageCommands, hcmd, hseen, hp] at h

theorem validateStageCommands_error_of_empty (inPath : String → Bool) :
    ∀ (stages : List Stage) (seen : List String) (s : Stage),
    s ∈ stages → s.cmd = [] →
    ∃ e, validateStageCommands inPath stages seen = .error e := by
  intro stages
  induction stages with
  | nil => intro seen s hs; simp at hs
  | cons t rest ih =>
    intro seen s hs hcmd
    cases htc : t.cmd with
    | nil => exact ⟨emptyCommandMsg t.name, by simp [validateStageCommands, htc]⟩
    | cons c args =>
      have hsr : s ∈ rest := by
        rcases List.mem_cons.mp hs with h1 | h1
        · subst h1; rw [htc] at hcmd; simp at hcmd
        · exact h1
      by_cases hseen : c ∈ seen
      · rcases ih seen s hsr hcmd with ⟨e, he⟩
        exact ⟨e, by simp [validateStageCommands, htc, hseen, he]⟩
      · by_cases hp : inPath c = true
        · rcases ih (c :: seen) s hsr hcmd with ⟨e, he⟩
          exact ⟨e, by simp [validateStageCommands, htc, hseen, hp, he]⟩
        · exact ⟨requiresMsg t.name c, by simp [validateStageCommands, htc, hseen, hp]⟩

/-! ## Claim theorems -/

/-- C6: for every stage whose cached key equals its current
fingerprint+command cache key, with caching enabled, executeStage
produces a Result with cacheHit = true, status = pass and duration = 0
without invoking the backend; and in every Result executeStage
produces, cacheHit = true implies status = pass and duration = 0. -/
theorem claim_C6_cache_hit_invariant (cfg : RunnerConfig)
    (run : String → List String → Nat → ExecOutcome) (stage : Stage) :
    (cfg.noCache = false →
      lookupS cfg.cache stage.name = stageCacheKey cfg stage →
      executeStage cfg run stage =
        some ({ name := stage.name, command := joinSpace stage.cmd,
                status := "pass", duration := 0, output := "",
                cacheHit := true, error := none }, false)) ∧
    (∀ pr : Result × Bool, executeStage cfg run stage = some pr →
      pr.1.cacheHit = true → pr.1.status = "pass" ∧ pr.1.duration = 0) := by
  constructor
  · intro h1 h2
    simp [executeStage, h1, h2]
  · intro pr h hc
    by_cases hcond : (!cfg.noCache &&
        (lookupS cfg.cache stage.name == stageCacheKey cfg stage)) = true
    · simp only [executeStage, hcond, if_true] at h
      injection h with h2
      rw [← h2]
      exact ⟨rfl, rfl⟩
    · cases hcmd : stage.cmd with
      | nil =>
        rw [executeStage] at h
        rw [if_neg (by simp [hcond]), hcmd] at h
        simp at h
      | cons c args =>
        rw [executeStage] at h
        rw [if_neg (by simp [hcond]), hcmd] at h
        injection h with h2
        rw [← h2] at hc
        simp at hc

/-- C10: a non-empty command list is an unchecked precondition of stage
execution: validateStageCommands (upstream) rejects a stage with an
empty command before execution, a validated stage list only holds
non-empty commands (so indexing Cmd[0] is in bounds), and the execution
path itself performs no emptiness check — on a non-cached stage with an
empty command it indexes out of bounds (modelled as `none`). -/
theorem claim_C10_empty_command_precondition (inPath : String → Bool)
    (stages : List Stage) (cfg : RunnerConfig)
    (run : String → List String → Nat → ExecOutcome) (stage : Stage) :
    (validateStageCommands inPath stages [] = .ok () →
      ∀ s ∈ stages, s.cmd ≠ []) ∧
    (∀ s ∈ stages, s.cmd = [] →
      ∃ e, validateStageCommands inPath stages [] = .error e) ∧
    ((∃ s, s ∈ stages ∧ s.cmd = [] ∧ stages = [s]) →
      validateStageCommands inPath stages [] =
        .error (emptyCommandMsg (stages.headD stage).name)) ∧
    (stage.cmd ≠ [] → ∃ pr, executeStage cfg run stage = some pr) ∧
    (stage.cmd = [] →
      (!cfg.noCache &&
        (lookupS cfg.cache stage.name == stageCacheKey cfg stage)) = false →
      executeStage cfg run stage = none) := by
  refine ⟨?_, ?_, ?_, ?_, ?_⟩
  · intro h s hs
    exact validateStageCommands_ok_nonempty inPath stages [] h s hs
  · intro s hs hcmd
    exact validateStageCommands_error_of_empty inPath stages [] s hs hcmd
  · rintro ⟨s, _, hcmd, hsingle⟩
    subst hsingle
    simp [validateStageCommands, hcmd]
  · intro hcmd
    by_cases hcond : (!cfg.noCache &&
        (lookupS cfg.cache stage.name == stageCacheKey cfg stage)) = true
    · have h : executeStage cfg run stage =
          some ({ name := stage.name, command := joinSpace stage.cmd,
                  status := "pass", duration := 0, output := "",
                  cacheHit := true, error := none }, false) := by
        simp only [executeStage, hcond, if_true]
      exact ⟨_, h⟩
    · cases hc : stage.cmd with
      | nil => exact absurd hc hcmd
      | cons c args =>
        have h : executeStage cfg run stage =
            some ({ name := stage.name, command := joinSpace stage.cmd,
                    status := if (run c args (effectiveTimeout stage)).failure.isSome
                      then "fail" else "pass",
                    duration := (run c args (effectiveTimeout stage)).elapsed,
                    output := (run c args (effectiveTimeout stage)).output,
                    cacheHit := false,
                    error := (run c args (effectiveTimeout stage)).failure }, true) := by
          rw [executeStage]
          rw [if_neg (by simp [hcond]), hc]
        exact ⟨_, h⟩
  · intro hcmd hcond
    rw [executeStage]
    rw [if_neg (by simp [hcond]), hcmd]

/-! ## Remote polling lemmas -/

/-- The poll loop returns the first parseable exit code, skipping
not-yet-present reads. -/
theorem pollLoop_reads_code (budget : Nat) (read : Nat → Option String)
    (sentinel : String) :
    ∀ (t rem a : Nat) (s : String) (c : Int),
    t < rem →
    (∀ j, j < t → read (a + j) = none ∨ read (a + j) = some "") →
    read (a + t) = some s → s ≠ "" → parseAtoiChars (trimChars s.data) = some c →
    1 + (a + t) < budget →
    pollLoop budget read sentinel a rem = .ok c := by
  intro t
  induction t with
  | zero =>
    intro rem a s c ht _ hread hs hparse hbudget
    match rem, ht with
    | rem + 1, _ =>
      have hexp : ctxExpired budget (1 + a) = false := by
        simp [ctxExpired]
        omega
      simp only [pollLoop, hexp, Bool.false_eq_true, if_false]
      simp only [Nat.add_zero] at hread
      rw [hread]
      simp [hs, hparse]
  | succ t ih =>
    intro rem a s c ht hskip hread hs hparse hbudget
    match rem, ht with
    | rem + 1, _ =>
      have hexp : ctxExpired budget (1 + a) = false := by
        simp [ctxExpired]
        omega
      simp only [pollLoop, hexp, Bool.false_eq_true, if_false]
      have hstep := hskip 0 (by omega)
      simp only [Nat.add_zero] at hstep
      have hrec := ih rem (a + 1) s c (by omega)
        (by
          intro j hj
          have := hskip (j + 1) (by omega)
          rw [show a + (j + 1) = a + 1 + j from by omega] at this
          exact this)
        (by rw [show a + 1 + t = a + (t + 1) from by omega]; exact hread)
        hs hparse (by omega)
      rcases hstep with h1 | h1
      · rw [h1]
        exact hrec
      · rw [h1]
        simp only [ne_eq, not_true_eq_false, if_false]
        exact hrec

/-- Exhausting the retry budget yields the timeout error. -/
theorem pollLoop_timeout (budget : Nat) (read : Nat → Option String)
    (sentinel : String) :
    ∀ (rem a : Nat),
    (∀ j, j < rem → read (a + j) = none ∨ read (a + j) = some "") →
    a + rem < budget →
    pollLoop budget read sentinel a rem = .error (timeoutMsg sentinel) := by
  intro rem
  induction rem with
  | zero => intro a _ _; rfl
  | succ rem ih =>
    intro a hread hbudget
    have hexp : ctxExpired budget (1 + a) = false := by
      simp [ctxExpired]
      omega
    simp only [pollLoop, hexp, Bool.false_eq_true, if_false]
    have hstep := hread 0 (by omega)
    simp only [Nat.add_zero] at hstep
    have hrec := ih (a + 1)
      (by
        intro j hj
        have := hread (j + 1) (by omega)
        rw [show a + (j + 1) = a + 1 + j from by omega] at this
        exact this)
      (by omega)
    rcases hstep with h1 | h1
    · rw [h1]
      exact hrec
    · rw [h1]
      simp only [ne_eq, not_true_eq_false, if_false]
      exact hrec

/-- An expired context aborts the poll at once with a context error. -/
theorem pollLoop_ctx_expired (budget : Nat) (read : Nat → Option String)
    (sentinel : String) (i rem : Nat)
    (h : ctxExpired budget (1 + i) = true) :
    pollLoop budget read sentinel i (rem + 1) = .error pollCtxMsg := by
  simp [pollLoop, h]

/-- A not-yet-present sentinel file (read error or empty content) is not
an error: the loop simply proceeds to the next attempt. -/
theorem pollLoop_continues (budget : Nat) (read : Nat → Option String)
    (sentinel : String) (i rem : Nat)
    (hexp : ctxExpired budget (1 + i) = false)
    (h : read i = none ∨ read i = some "") :
    pollLoop budget read sentinel i (rem + 1) =
    pollLoop budget read sentinel (i + 1) rem := by
  simp only [pollLoop, hexp, Bool.false_eq_true, if_false]
  rcases h with h1 | h1
  · rw [h1]
  · rw [h1]
    simp

/-- The timeout failure is distinct from every non-zero-exit failure. -/
theorem timeout_error_ne_exit_error (t : String) (c : Int) :
    "failed to get exit code: " ++ t ≠ exitCodeMsg c := by
  intro h
  have hd := congrArg String.data h
  rw [String.data_append] at hd
  unfold exitCodeMsg at hd
  rw [String.data_append] at hd
  have hh := congrArg (fun l => l.headD ' ') hd
  simp at hh

theorem runInSession_ok (budget : Nat) (pane : String) (h : 2 ≤ budget) :
    runInSession budget pane = .ok pane := by
  have h1 : ctxExpired budget 1 = false := by
    simp [ctxExpired]
    omega
  simp [runInSession, h1]

/-- C7: in the remote backend the sentinel file is polled at a fixed
interval under a budget of 300 retries governed by the stage's timeout
context; a not-yet-present file is not an error and polling continues;
a wrapped command that writes exit code 0 within the budget yields
status = pass, a non-zero code yields status = fail with the code
recorded in the error, and exhausting the budget yields a timeout
failure distinct from any non-zero-exit failure. -/
theorem claim_C7_sentinel_polling (stage : Stage) (nonce : Nat)
    (pane : String) (read : Nat → Option String) :
    (∀ t (s : String) (c : Int), t < 300 →
      (∀ j, j < t → read j = none ∨ read j = some "") →
      read t = some s → s ≠ "" → parseAtoiChars (trimChars s.data) = some c →
      1 + t < remoteBudget stage →
      (c = 0 → remoteExecuteStage nonce pane read stage =
        { name := stage.name, command := joinSpace stage.cmd,
          status := "pass", duration := 0, output := pane,
          cacheHit := false, error := none }) ∧
      (c ≠ 0 → remoteExecuteStage nonce pane read stage =
        { name := stage.name, command := joinSpace stage.cmd,
          status := "fail", duration := 0, output := pane,
          cacheHit := false, error := some (exitCodeMsg c) })) ∧
    (∀ i rem, ctxExpired (remoteBudget stage) (1 + i) = false →
      read i = none ∨ read i = some "" →
      pollLoop (remoteBudget stage) read (sentinelPath stage nonce) i (rem + 1) =
      pollLoop (remoteBudget stage) read (sentinelPath stage nonce) (i + 1) rem) ∧
    ((∀ j, j < 300 → read j = none ∨ read j = some "") →
      300 < remoteBudget stage →
      remoteExecuteStage nonce pane read stage =
        { name := stage.name, command := joinSpace stage.cmd,
          status := "fail", duration := 0, output := pane, cacheHit := false,
          error := some ("failed to get exit code: " ++
            timeoutMsg (sentinelPath stage nonce)) } ∧
      ∀ c : Int,
        "failed to get exit code: " ++ timeoutMsg (sentinelPath stage nonce) ≠
        exitCodeMsg c) := by
  refine ⟨?_, ?_, ?_⟩
  · intro t s c ht hskip hread hs hparse hbudget
    have hsess : runInSession (remoteBudget stage) pane = .ok pane :=
      runInSession_ok _ _ (by omega)
    have hpoll : pollExitCode (remoteBudget stage) read
        (sentinelPath stage nonce) = .ok c := by
      unfold pollExitCode
      exact pollLoop_reads_code (remoteBudget stage) read
        (sentinelPath stage nonce) t 300 0 s c ht
        (by intro j hj; simpa using hskip j hj)
        (by simpa using hread) hs hparse (by omega)
    constructor
    · intro hc0
      simp only [remoteExecuteStage, hsess, hpoll]
      simp [hc0]
    · intro hcne
      simp only [remoteExecuteStage, hsess, hpoll]
      simp [hcne]
  · intro i rem hexp h
    exact pollLoop_continues _ read _ i rem hexp h
  · intro hnever hbudget
    have hsess : runInSession (remoteBudget stage) pane = .ok pane :=
      runInSession_ok _ _ (by omega)
    have hpoll : pollExitCode (remoteBudget stage) read
        (sentinelPath stage nonce) = .error (timeoutMsg (sentinelPath stage nonce)) := by
      unfold pollExitCode
      exact pollLoop_timeout (remoteBudget stage) read
        (sentinelPath stage nonce) 300 0
        (by intro j hj; simpa using hnever j hj) (by omega)
    constructor
    · simp only [remoteExecuteStage, hsess, hpoll]
    · intro c
      exact timeout_error_ne_exit_error _ c

/-- C8 counterexample: a remote stage with timeout 0 is NOT executed
under a system-default deadline — its context deadline is 0 seconds,
already expired.  The ssh wrapper swallows the injection failures (its
stderr check is vacuously true and stdout is empty), so the stage
fails at exit-code polling with the context-deadline error, even
though its sentinel file reports exit code 0 immediately.  (The claim,
which requires a system-default deadline for a zero timeout in either
backend, would require status = "pass" here.) -/
theorem claim_C8_counterexample :
    remoteBudget { name := "s", cmd := ["true"], timeout := 0, dependsOn := "" } = 0 ∧
    ctxExpired (remoteBudget { name := "s", cmd := ["true"], timeout := 0, dependsOn := "" }) 0 = true ∧
    (remoteExecuteStage 1 "out" (fun _ => some "0")
      { name := "s", cmd := ["true"], timeout := 0, dependsOn := "" }).status = "fail" ∧
    (remoteExecuteStage 1 "out" (fun _ => some "0")
      { name := "s", cmd := ["true"], timeout := 0, dependsOn := "" }).error =
      some ("failed to get exit code: " ++ pollCtxMsg) ∧
    (remoteExecuteStage 1 "out" (fun _ => some "0")
      { name := "s", cmd := ["true"], timeout := 10, dependsOn := "" }).status = "pass" := by
  exact ⟨rfl, rfl, rfl, rfl, by decide⟩

/-- C8 amended: the local backend bounds execution by the stage's
timeout with a 30-second default when the timeout is zero; the remote
backend bounds execution by a cancellable deadline of exactly the
stage's timeout with no default, so a zero timeout yields an
immediately-expired deadline: the swallowed injection failures leave
an empty output and the stage fails at exit-code polling with the
context-deadline error, without executing. -/
theorem claim_C8_amended (stage : Stage) :
    (0 < effectiveTimeout stage) ∧
    (stage.timeout ≠ 0 → effectiveTimeout stage = stage.timeout) ∧
    (stage.timeout = 0 → effectiveTimeout stage = 30) ∧
    (remoteBudget stage = stage.timeout * 10) ∧
    (stage.timeout = 0 → ∀ (nonce : Nat) (pane : String) (read : Nat → Option String),
      remoteExecuteStage nonce pane read stage =
        { name := stage.name, command := joinSpace stage.cmd, status := "fail",
          duration := 0, output := "", cacheHit := false,
          error := some ("failed to get exit code: " ++ pollCtxMsg) }) ∧
    (∀ (budget : Nat) (read : Nat → Option String) (sentinel : String) (i rem : Nat),
      ctxExpired budget (1 + i) = true →
      pollLoop budget read sentinel i (rem + 1) = .error pollCtxMsg) := by
  refine ⟨?_, ?_, ?_, rfl, ?_, ?_⟩
  · unfold effectiveTimeout
    by_cases h : stage.timeout = 0
    · simp [h]
    · simp [h]
      omega
  · intro h
    simp [effectiveTimeout, h]
  · intro h
    simp [effectiveTimeout, h]
  · intro h nonce pane read
    have hb : remoteBudget stage = 0 := by simp [remoteBudget, h]
    have hsess : runInSession (remoteBudget stage) pane = .ok "" := by
      rw [hb]
      rfl
    have hpoll : pollExitCode (remoteBudget stage) read (sentinelPath stage nonce) =
        .error pollCtxMsg := by
      unfold pollExitCode
      exact pollLoop_ctx_expired _ read _ 0 299 (by rw [hb]; rfl)
    simp only [remoteExecuteStage, hsess, hpoll]
  · intro budget read sentinel i rem h
    exact pollLoop_ctx_expired budget read sentinel i rem h

/-! ## Cache file round-trip lemmas -/

theorem splitOnSep_ne_nil (sep : Char) : ∀ s : List Char, splitOnSep sep s ≠ [] := by
  intro s
  induction s with
  | nil => simp [splitOnSep]
  | cons c rest ih =>
    by_cases hc : c = sep
    · simp [splitOnSep, hc]
    · simp only [splitOnSep, if_neg hc]
      cases h : splitOnSep sep rest with
      | nil => simp
      | cons h t => simp

theorem splitOnSep_no_sep (sep : Char) :
    ∀ s : List Char, sep ∉ s → splitOnSep sep s = [s] := by
  intro s
  induction s with
  | nil => intro _; rfl
  | cons c rest ih =>
    intro h
    have hc : c ≠ sep := by
      intro he
      exact h (by rw [he]; exact List.mem_cons_self _ _)
    have hrest : sep ∉ rest := fun hm => h (List.mem_cons_of_mem _ hm)
    simp only [splitOnSep, if_neg hc, ih hrest]

theorem splitOnSep_append (sep : Char) :
    ∀ (xs ys : List Char),
    splitOnSep sep (xs ++ sep :: ys) = splitOnSep sep xs ++ splitOnSep sep ys := by
  intro xs ys
  induction xs with
  | nil => simp [splitOnSep]
  | cons c rest ih =>
    by_cases hc : c = sep
    · simp [splitOnSep, hc, ih]
    · simp only [List.cons_append, splitOnSep, if_neg hc, List.append_eq]
      rw [ih]
      cases h : splitOnSep sep rest with
      | nil => exact absurd h (splitOnSep_ne_nil sep rest)
      | cons hh tt => rfl

theorem splitOnSep_pair (sep : Char) (k v : List Char)
    (hk : sep ∉ k) (hv : sep ∉ v) :
    splitOnSep sep (k ++ sep :: v) = [k, v] := by
  rw [splitOnSep_append, splitOnSep_no_sep sep k hk, splitOnSep_no_sep sep v hv]
  rfl

theorem split_join (sep : Char) :
    ∀ lines : List (List Char), lines ≠ [] → (∀ l ∈ lines, sep ∉ l) →
    splitOnSep sep (joinWithSep sep lines) = lines := by
  intro lines
  induction lines with
  | nil => intro h; exact absurd rfl h
  | cons x rest ih =>
    intro _ hall
    cases rest with
    | nil =>
      show splitOnSep sep x = [x]
      exact splitOnSep_no_sep sep x (hall x (List.mem_cons_self _ _))
    | cons y rest' =>
      show splitOnSep sep (x ++ sep :: joinWithSep sep (y :: rest')) = _
      rw [splitOnSep_append,
          splitOnSep_no_sep sep x (hall x (List.mem_cons_self _ _)),
          ih (by simp) (fun l hl => hall l (List.mem_cons_of_mem _ hl))]
      rfl

theorem insertSorted_perm (p : List Char × List Char) :
    ∀ m : CacheMap, (insertSorted p m).Perm (p :: m) := by
  intro m
  induction m with
  | nil => simp [insertSorted]
  | cons q rest ih =>
    by_cases h : lexLe p.1 q.1 = true
    · simp [insertSorted, h]
    · simp only [insertSorted, if_neg h]
      exact (ih.cons q).trans (List.Perm.swap p q rest)

theorem sortByKey_perm : ∀ m : CacheMap, (sortByKey m).Perm m := by
  intro m
  induction m with
  | nil => simp [sortByKey]
  | cons p rest ih =>
    exact (insertSorted_perm p (sortByKey rest)).trans (ih.cons p)

theorem lookupC_setCacheEntry_self (m : CacheMap) (k v : List Char) :
    lookupC (setCacheEntry m k v) k = some v := by
  induction m with
  | nil => simp [setCacheEntry, lookupC]
  | cons p rest ih =>
    by_cases h : p.1 = k
    · simp [setCacheEntry, h, lookupC]
    · simp [setCacheEntry, h, lookupC, ih]

theorem lookupC_setCacheEntry_ne (m : CacheMap) (k v n : List Char)
    (h : k ≠ n) : lookupC (setCacheEntry m k v) n = lookupC m n := by
  induction m with
  | nil => simp [setCacheEntry, lookupC, h]
  | cons p rest ih =>
    by_cases hp : p.1 = k
    · simp [setCacheEntry, hp, lookupC, h]
    · simp [setCacheEntry, hp, lookupC, ih]

theorem setCacheEntry_of_absent (m : CacheMap) (k v : List Char)
    (h : lookupC m k = none) : setCacheEntry m k v = m ++ [(k, v)] := by
  induction m with
  | nil => rfl
  | cons p rest ih =>
    by_cases hp : p.1 = k
    · simp [lookupC, hp] at h
    · simp only [lookupC, if_neg hp] at h
      simp [setCacheEntry, hp, ih h]

theorem lookupC_append_left (m1 m2 : CacheMap) (k : List Char)
    (h : lookupC m1 k = none) : lookupC (m1 ++ m2) k = lookupC m2 k := by
  induction m1 with
  | nil => rfl
  | cons p rest ih =>
    by_cases hp : p.1 = k
    · simp [lookupC, hp] at h
    · simp only [lookupC, if_neg hp] at h
      simp [lookupC, hp, ih h]

theorem lookupC_none_iff (m : CacheMap) (k : List Char) :
    lookupC m k = none ↔ k ∉ m.map (fun p => p.1) := by
  induction m with
  | nil => simp [lookupC]
  | cons p rest ih =>
    by_cases hp : p.1 = k
    · simp [lookupC, hp]
    · simp [lookupC, hp, ih, Ne.symm hp]

theorem lookupC_some_mem (m : CacheMap) (k v : List Char) :
    lookupC m k = some v → (k, v) ∈ m := by
  induction m with
  | nil => intro h; simp [lookupC] at h
  | cons p rest ih =>
    intro h
    by_cases hp : p.1 = k
    · simp only [lookupC, if_pos hp] at h
      have hv : p.2 = v := Option.some.inj h
      have hpe : p = (k, v) := by
        rcases p with ⟨p1, p2⟩
        simp at hp hv
        rw [hp, hv]
      rw [← hpe]
      exact List.mem_cons_self _ _
    · simp only [lookupC, if_neg hp] at h
      exact List.mem_cons_of_mem _ (ih h)

theorem mem_lookupC_of_nodup (m : CacheMap)
    (hnd : (m.map (fun p => p.1)).Nodup) (k v : List Char)
    (h : (k, v) ∈ m) : lookupC m k = some v := by
  induction m with
  | nil => simp at h
  | cons p rest ih =>
    simp only [List.map_cons, List.nodup_cons] at hnd
    rcases List.mem_cons.mp h with h1 | h1
    · rw [← h1]
      simp [lookupC]
    · have hp : p.1 ≠ k := by
        intro he
        exact hnd.1 (by
          rw [he]
          exact List.mem_map_of_mem (fun q => q.1) h1)
      simp only [lookupC, if_neg hp]
      exact ih hnd.2 h1

/-- Lookup is invariant under permutation when keys are unique. -/
theorem lookupC_eq_of_perm (m1 m2 : CacheMap) (hperm : m1.Perm m2)
    (hnd : (m1.map (fun p => p.1)).Nodup) (k : List Char) :
    lookupC m1 k = lookupC m2 k := by
  have hnd2 : (m2.map (fun p => p.1)).Nodup :=
    (hperm.map (fun p => p.1)).nodup_iff.mp hnd
  cases h1 : lookupC m1 k with
  | none =>
    rw [lookupC_none_iff] at h1
    have : k ∉ m2.map (fun p => p.1) := by
      intro hm
      exact h1 ((hperm.map (fun p => p.1)).mem_iff.mpr hm)
    rw [eq_comm, lookupC_none_iff]
    exact this
  | some v =>
    have hm : (k, v) ∈ m2 := hperm.mem_iff.mp (lookupC_some_mem m1 k v h1)
    rw [eq_comm]
    exact mem_lookupC_of_nodup m2 hnd2 k v hm

theorem foldl_setCacheEntry_fresh :
    ∀ (l : CacheMap) (acc : CacheMap),
    (∀ p ∈ l, lookupC acc p.1 = none) → (l.map (fun p => p.1)).Nodup →
    l.foldl (fun m p => setCacheEntry m p.1 p.2) acc = acc ++ l := by
  intro l
  induction l with
  | nil => intro acc _ _; simp
  | cons p rest ih =>
    intro acc hfresh hnd
    simp only [List.map_cons, List.nodup_cons] at hnd
    have hstep : setCacheEntry acc p.1 p.2 = acc ++ [p] :=
      setCacheEntry_of_absent acc p.1 p.2 (hfresh p (List.mem_cons_self _ _))
    show List.foldl (fun m q => setCacheEntry m q.1 q.2) (setCacheEntry acc p.1 p.2) rest = _
    rw [hstep, ih (acc ++ [p])
      (by
        intro q hq
        have h1 : lookupC acc q.1 = none := hfresh q (List.mem_cons_of_mem _ hq)
        rw [lookupC_append_left acc [p] q.1 h1]
        have hne : p.1 ≠ q.1 := by
          intro he
          exact hnd.1 (he ▸ List.mem_map_of_mem (fun r => r.1) hq)
        simp [lookupC, hne])
      hnd.2]
    simp

theorem cacheLine_ne_nil (p : List Char × List Char) : cacheLine p ≠ [] := by
  unfold cacheLine
  simp

theorem loadCacheLine_of_entry (m : CacheMap) (p : List Char × List Char)
    (hk : ':' ∉ p.1) (hv : ':' ∉ p.2) :
    loadCacheLine m (cacheLine p) = setCacheEntry m p.1 p.2 := by
  unfold loadCacheLine
  rw [if_neg (cacheLine_ne_nil p)]
  unfold cacheLine
  rw [splitOnSep_pair _ _ _ hk hv]

theorem foldl_loadCacheLine_entries :
    ∀ (l : CacheMap) (acc : CacheMap),
    (∀ p ∈ l, ':' ∉ p.1 ∧ ':' ∉ p.2) →
    (l.map cacheLine).foldl loadCacheLine acc =
    l.foldl (fun m p => setCacheEntry m p.1 p.2) acc := by
  intro l
  induction l with
  | nil => intro acc _; rfl
  | cons p rest ih =>
    intro acc hwf
    show List.foldl loadCacheLine (loadCacheLine acc (cacheLine p)) _ = _
    rw [loadCacheLine_of_entry acc p (hwf p (List.mem_cons_self _ _)).1
        (hwf p (List.mem_cons_self _ _)).2]
    exact ih _ (fun q hq => hwf q (List.mem_cons_of_mem _ hq))

/-- C9 counterexample: loadCache splits each line on every ':' and only
accepts lines with exactly two parts, so a cacheKey containing ':' does
not survive a save/load round-trip: the saved entry a ↦ "x:y" is
dropped entirely on load. -/
theorem claim_C9_counterexample :
    lookupC [(['a'], ['x', ':', 'y'])] ['a'] = some ['x', ':', 'y'] ∧
    saveCacheContent [(['a'], ['x', ':', 'y'])] = ['a', ':', 'x', ':', 'y'] ∧
    loadCacheContent (saveCacheContent [(['a'], ['x', ':', 'y'])]) = [] := by
  refine ⟨rfl, rfl, ?_⟩
  decide

/-- C9 amended: Save followed by Load reproduces the mapping for every
cache whose names and keys contain no ':' and no newline (the cache
keys the runner itself writes for colon-free commands); a key or name
containing ':' is dropped or mis-split on load.  Malformed lines —
lines without the name:cacheKey separator — are ignored without error:
appending such a line to a cache file leaves the loaded map unchanged. -/
theorem claim_C9_cache_round_trip (m : CacheMap)
    (hnd : (m.map (fun p => p.1)).Nodup)
    (hwf : ∀ p ∈ m, ':' ∉ p.1 ∧ ':' ∉ p.2 ∧ '\n' ∉ p.1 ∧ '\n' ∉ p.2) :
    (∀ k, lookupC (loadCacheContent (saveCacheContent m)) k = lookupC m k) ∧
    (∀ (content junk : List Char), '\n' ∉ junk → ':' ∉ junk →
      loadCacheContent (content ++ '\n' :: junk) = loadCacheContent content) := by
  have hperm : (sortByKey m).Perm m := sortByKey_perm m
  have hnd' : ((sortByKey m).map (fun p => p.1)).Nodup :=
    ((hperm.map (fun p => p.1)).nodup_iff).mpr hnd
  have hwf' : ∀ p ∈ sortByKey m,
      ':' ∉ p.1 ∧ ':' ∉ p.2 ∧ '\n' ∉ p.1 ∧ '\n' ∉ p.2 :=
    fun p hp => hwf p (hperm.mem_iff.mp hp)
  constructor
  · intro k
    have hload : loadCacheContent (saveCacheContent m) = sortByKey m := by
      unfold loadCacheContent saveCacheContent
      cases hs : sortByKey m with
      | nil =>
        rw [hs] at *
        rfl
      | cons q rest =>
        have hlines : splitOnSep '\n'
            (joinWithSep '\n' ((q :: rest).map cacheLine)) =
            (q :: rest).map cacheLine := by
          apply split_join
          · simp
          · intro l hl
            rcases List.mem_map.mp hl with ⟨p, hp, hpl⟩
            rw [← hpl]
            unfold cacheLine
            intro hmem
            rcases List.mem_append.mp hmem with h1 | h1
            · exact ((hwf' p (by rw [hs]; exact hp)).2.2.1) h1
            · rcases List.mem_cons.mp h1 with h2 | h2
              · exact absurd h2 (by decide)
              · exact ((hwf' p (by rw [hs]; exact hp)).2.2.2) h2
        rw [hlines]
        rw [foldl_loadCacheLine_entries _ _
          (fun p hp => ⟨(hwf' p (by rw [hs]; exact hp)).1,
            (hwf' p (by rw [hs]; exact hp)).2.1⟩)]
        rw [foldl_setCacheEntry_fresh _ []
          (by intro p _; rfl) (by rw [← hs]; exact hnd')]
        rfl
    rw [hload]
    exact lookupC_eq_of_perm (sortByKey m) m hperm hnd' k
  · intro content junk hnl hcol
    unfold loadCacheContent
    rw [splitOnSep_append, List.foldl_append]
    have hjunk : splitOnSep '\n' junk = [junk] := splitOnSep_no_sep '\n' junk hnl
    rw [hjunk]
    show loadCacheLine _ junk = _
    unfold loadCacheLine
    by_cases hj : junk = []
    · rw [if_pos hj]
    · rw [if_neg hj, splitOnSep_no_sep ':' junk hcol]

/-! ## Sequential run: cache update policy -/

theorem lookupS_setAssoc_self (m : List (String × String)) (k v : String) :
    lookupS (setAssoc m k v) k = v := by
  induction m with
  | nil => simp [setAssoc, lookupS]
  | cons p rest ih =>
    by_cases h : p.1 = k
    · simp [setAssoc, h, lookupS]
    · simp [setAssoc, h, lookupS, ih]

theorem lookupS_setAssoc_ne (m : List (String × String)) (k v n : String)
    (h : k ≠ n) : lookupS (setAssoc m k v) n = lookupS m n := by
  induction m with
  | nil => simp [setAssoc, lookupS, h]
  | cons p rest ih =>
    by_cases hp : p.1 = k
    · simp [setAssoc, hp, lookupS, h]
    · simp [setAssoc, hp, lookupS, ih]

/-- Stages whose name differs leave a cache entry untouched. -/
theorem seqStep_cache_other (exec : Stage → SeqOutcome) (noCache : Bool)
    (key : Stage → String) (acc : List Result × List (String × String))
    (stage : Stage) (n : String) (h : stage.name ≠ n) :
    lookupS (seqStep exec noCache key acc stage).2 n = lookupS acc.2 n := by
  unfold seqStep
  by_cases h1 : (!noCache && (lookupS acc.2 stage.name == key stage)) = true
  · rw [if_pos h1]
  · rw [if_neg h1]
    by_cases h2 : (exec stage).failed = true
    · simp only [h2, if_true]
    · simp only [h2, Bool.false_eq_true, if_false]
      exact lookupS_setAssoc_ne acc.2 stage.name (key stage) n h

theorem foldl_seqStep_cache_untouched (exec : Stage → SeqOutcome)
    (noCache : Bool) (key : Stage → String) :
    ∀ (stages : List Stage) (acc : List Result × List (String × String))
    (n : String), n ∉ stageNames stages →
    lookupS (stages.foldl (seqStep exec noCache key) acc).2 n = lookupS acc.2 n := by
  intro stages
  induction stages with
  | nil => intro acc n _; rfl
  | cons t rest ih =>
    intro acc n hn
    simp only [stageNames, List.map_cons, List.mem_cons] at hn
    push_neg at hn
    show lookupS (rest.foldl (seqStep exec noCache key)
      (seqStep exec noCache key acc t)).2 n = _
    rw [ih (seqStep exec noCache key acc t) n hn.2]
    exact seqStep_cache_other exec noCache key acc t n (fun he => hn.1 he.symm)

/-- One step's effect on the stage's own cache entry. -/
theorem seqStep_cache_self (exec : Stage → SeqOutcome) (noCache : Bool)
    (key : Stage → String) (acc : List Result × List (String × String))
    (stage : Stage) :
    lookupS (seqStep exec noCache key acc stage).2 stage.name =
      if (!noCache && (lookupS acc.2 stage.name == key stage)) = true then
        lookupS acc.2 stage.name
      else if (exec stage).failed then lookupS acc.2 stage.name
      else key stage := by
  unfold seqStep
  by_cases hhit : (!noCache && (lookupS acc.2 stage.name == key stage)) = true
  · rw [if_pos hhit, if_pos hhit]
  · rw [if_neg hhit, if_neg hhit]
    by_cases hfail : (exec stage).failed = true
    · simp only [hfail, if_true]
    · simp only [hfail, Bool.false_eq_true, if_false]
      exact lookupS_setAssoc_self _ stage.name (key stage)

/-- The final cache entry of each stage, by case: kept on a cache hit,
rewritten to the stage's key exactly on a successful non-cached
execution, untouched when the stage fails. -/
theorem runSeq_cache_char (exec : Stage → SeqOutcome) (noCache : Bool)
    (key : Stage → String) (stages : List Stage)
    (cache0 : List (String × String)) (s : Stage)
    (hnd : (stageNames stages).Nodup) (hs : s ∈ stages) :
    lookupS (runSeq exec noCache key stages cache0).2 s.name =
      if (!noCache && (lookupS cache0 s.name == key s)) = true then
        lookupS cache0 s.name
      else if (exec s).failed then lookupS cache0 s.name else key s := by
  rcases List.append_of_mem hs with ⟨l1, l2, rfl⟩
  have hmap : stageNames (l1 ++ s :: l2) =
      stageNames l1 ++ s.name :: stageNames l2 := by
    simp [stageNames]
  rw [hmap, List.nodup_middle] at hnd
  have hnotin : s.name ∉ stageNames l1 ++ stageNames l2 := (List.nodup_cons.mp hnd).1
  have h1 : s.name ∉ stageNames l1 :=
    fun h => hnotin (List.mem_append.mpr (Or.inl h))
  have h2 : s.name ∉ stageNames l2 :=
    fun h => hnotin (List.mem_append.mpr (Or.inr h))
  unfold runSeq
  rw [List.foldl_append]
  show lookupS (l2.foldl (seqStep exec noCache key)
    (seqStep exec noCache key (l1.foldl (seqStep exec noCache key) ([], cache0)) s)).2
      s.name = _
  rw [foldl_seqStep_cache_untouched exec noCache key l2 _ s.name h2]
  have hc1 : lookupS (l1.foldl (seqStep exec noCache key) ([], cache0)).2 s.name =
      lookupS cache0 s.name :=
    foldl_seqStep_cache_untouched exec noCache key l1 ([], cache0) s.name h1
  rw [seqStep_cache_self, hc1]

/-- C5: over a whole (sequential) run, only cache entries of stages
that succeed and were not already cache hits are rewritten — rewritten
exactly to the stage's new cache key; a cache-hit or failing stage's
entry, and every entry of a name outside the stage list, is unchanged;
hence a failed stage misses the cache again on the next run; the cache
is persisted once, after the loop, only when caching is enabled. -/
theorem claim_C5_cache_update_policy (exec : Stage → SeqOutcome)
    (noCache : Bool) (key : Stage → String) (stages : List Stage)
    (cache0 : List (String × String))
    (hnd : (stageNames stages).Nodup) :
    (∀ n, n ∉ stageNames stages →
      lookupS (runSeq exec noCache key stages cache0).2 n = lookupS cache0 n) ∧
    (∀ s ∈ stages, noCache = false → lookupS cache0 s.name = key s →
      lookupS (runSeq exec noCache key stages cache0).2 s.name =
        lookupS cache0 s.name) ∧
    (∀ s ∈ stages, (noCache = true ∨ lookupS cache0 s.name ≠ key s) →
      (exec s).failed = false →
      lookupS (runSeq exec noCache key stages cache0).2 s.name = key s) ∧
    (∀ s ∈ stages, (exec s).failed = true →
      lookupS (runSeq exec noCache key stages cache0).2 s.name =
        lookupS cache0 s.name) ∧
    (∀ s ∈ stages, lookupS cache0 s.name ≠ key s → (exec s).failed = true →
      lookupS (runSeq exec noCache key stages cache0).2 s.name ≠ key s) ∧
    (persistedCache noCache (runSeq exec noCache key stages cache0).2 =
      if noCache then none else some (runSeq exec noCache key stages cache0).2) := by
  refine ⟨?_, ?_, ?_, ?_, ?_, rfl⟩
  · intro n hn
    exact foldl_seqStep_cache_untouched exec noCache key stages ([], cache0) n hn
  · intro s hs hnc hk
    rw [runSeq_cache_char exec noCache key stages cache0 s hnd hs]
    rw [if_pos (by simp [hnc, hk])]
  · intro s hs hmiss hpass
    rw [runSeq_cache_char exec noCache key stages cache0 s hnd hs]
    rw [if_neg ?hm, if_neg (by simp [hpass])]
    case hm =>
      rcases hmiss with h | h
      · simp [h]
      · simp [h]
  · intro s hs hfail
    rw [runSeq_cache_char exec noCache key stages cache0 s hnd hs]
    by_cases hhit : (!noCache && (lookupS cache0 s.name == key s)) = true
    · rw [if_pos hhit]
    · rw [if_neg hhit, if_pos hfail]
  · intro s hs hmiss hfail
    rw [runSeq_cache_char exec noCache key stages cache0 s hnd hs]
    by_cases hhit : (!noCache && (lookupS cache0 s.name == key s)) = true
    · rw [if_pos hhit]
      exact hmiss
    · rw [if_neg hhit, if_pos hfail]
      exact hmiss

theorem getLayer_eq_zero (deps : DepMap) (n : String)
    (h : lookupDep deps n = "") :
    getLayer (lookupDep deps) (layerFuel deps) n = 0 := by
  show getLayer (lookupDep deps) (deps.length + 1) n = 0
  simp [getLayer, h]

/-- C1: for every stage list with unique names that passes
buildDepGraph validation, resolveOrder assigns each stage to exactly
one layer; a stage with no dependency is in layer 0; a stage with a
dependency is in layer 1 + the layer of its dependency (the maximum
over its single dependency), hence strictly above it; stages within
one layer have no dependency path between them; and the number of
layers is the longest dependency chain length + 1, where a stage's
layer index is exactly its dependency chain length. -/
theorem claim_C1_layering (stages : List Stage) (deps : DepMap)
    (layers : List (List Stage))
    (hnd : (stageNames stages).Nodup)
    (hok : buildDepGraph stages = .ok deps)
    (hlay : resolveOrder stages = .ok layers) :
    (∀ s ∈ stages,
      s ∈ layers.getD (getLayer (lookupDep deps) (layerFuel deps) s.name) [] ∧
      ∀ l, l < layers.length → s ∈ layers.getD l [] →
        l = getLayer (lookupDep deps) (layerFuel deps) s.name) ∧
    (∀ s ∈ stages, s.dependsOn = "" → s ∈ layers.getD 0 []) ∧
    (∀ s ∈ stages, ∀ d ∈ stages, s.dependsOn ≠ "" → s.dependsOn = d.name →
      getLayer (lookupDep deps) (layerFuel deps) s.name =
        getLayer (lookupDep deps) (layerFuel deps) d.name + 1 ∧
      getLayer (lookupDep deps) (layerFuel deps) d.name <
        getLayer (lookupDep deps) (layerFuel deps) s.name) ∧
    (∀ s ∈ stages, ∀ t ∈ stages, ∀ l, l < layers.length →
      s ∈ layers.getD l [] → t ∈ layers.getD l [] →
      ¬ DepPath (lookupDep deps) s.name t.name) ∧
    (layers.length = stages.foldl
      (fun m s => max m (getLayer (lookupDep deps) (layerFuel deps) s.name)) 0 + 1) ∧
    (∀ s ∈ stages,
      lookupDep deps (iterDep (lookupDep deps)
        (getLayer (lookupDep deps) (layerFuel deps) s.name) s.name) = "" ∧
      ∀ j, j < getLayer (lookupDep deps) (layerFuel deps) s.name →
        lookupDep deps (iterDep (lookupDep deps) j s.name) ≠ "") := by
  rcases resolveOrder_ok_elim stages layers hlay with ⟨deps', hb', hl'⟩
  have hde : deps' = deps := by
    rw [hok] at hb'
    exact (Except.ok.inj hb').symm
  rw [hde] at hl'
  subst hl'
  have hacyc : ¬ HasCycle (lookupDep deps) := buildDepGraph_ok_acyclic stages deps hok
  refine ⟨?_, ?_, ?_, ?_, ?_, ?_⟩
  · intro s hs
    refine ⟨mem_mkLayers_self stages _ _ s hs, ?_⟩
    intro l _ hmem
    exact ((mem_mkLayers_iff stages _ _ s l).mp hmem).2.1.symm
  · intro s hs hdep
    have hf : lookupDep deps s.name = "" := by
      rw [buildDep_lookup_name stages deps hnd hok s hs, hdep]
    have h0 : getLayer (lookupDep deps) (layerFuel deps) s.name = 0 :=
      getLayer_eq_zero deps s.name hf
    have := mem_mkLayers_self stages (lookupDep deps) (layerFuel deps) s hs
    rw [h0] at this
    exact this
  · intro s hs d hd hne hdep
    have hf : lookupDep deps s.name = d.name := by
      rw [buildDep_lookup_name stages deps hnd hok s hs, hdep]
    have hne' : lookupDep deps s.name ≠ "" := by
      rw [buildDep_lookup_name stages deps hnd hok s hs]
      exact hne
    have := getLayer_succ_edge deps hacyc s.name hne'
    rw [hf] at this
    exact ⟨this, by omega⟩
  · intro s hs t ht l hl hsl htl hpath
    have h1 := ((mem_mkLayers_iff stages _ _ s l).mp hsl).2.1
    have h2 := ((mem_mkLayers_iff stages _ _ t l).mp htl).2.1
    have := DepPath_layer_lt deps hacyc s.name t.name hpath
    omega
  · exact mkLayers_length stages _ _
  · intro s hs
    exact getLayer_chain_char deps hacyc
      (getLayer (lookupDep deps) (layerFuel deps) s.name) s.name rfl

/-- C2: with fail-fast enabled, once any stage of the just-completed
layer has failed, no stage of any later layer is dispatched — in
particular a stage B depending on a failed stage A never runs; every
dispatched stage still runs to completion and contributes its Result
(the whole failing layer included: no mid-layer cancellation). -/
theorem claim_C2_fail_fast (exec : Stage → Result) (stages : List Stage)
    (layers : List (List Stage)) (A B : Stage)
    (hnd : (stageNames stages).Nodup)
    (hres : resolveOrder stages = .ok layers)
    (hA : A ∈ stages) (hB : B ∈ stages)
    (hdep : B.dependsOn = A.name) (hdne : B.dependsOn ≠ "")
    (hfail : (exec A).status = "fail") :
    B ∉ executedStages exec true layers ∧
    runLayers exec true layers = (executedStages exec true layers).map exec ∧
    (∃ k, k < layers.length ∧ anyFailed ((layers.getD k []).map exec) = true ∧
      (∀ j, j < k → anyFailed ((layers.getD j []).map exec) = false) ∧
      executedStages exec true layers = (layers.take (k + 1)).flatten ∧
      (∀ s ∈ layers.getD k [], s ∈ executedStages exec true layers) ∧
      (∀ j, k < j → j < layers.length →
        ∀ s ∈ layers.getD j [], s ∉ executedStages exec true layers)) := by
  rcases resolveOrder_ok_elim stages layers hres with ⟨deps, hok, hl'⟩
  subst hl'
  have hacyc : ¬ HasCycle (lookupDep deps) := buildDepGraph_ok_acyclic stages deps hok
  set f := lookupDep deps with hf
  set fl := layerFuel deps with hfl
  set glA := getLayer f fl A.name with hglA
  set glB := getLayer f fl B.name with hglB
  have hBA : glB = glA + 1 := by
    have h1 : f B.name = A.name := by
      rw [hf, buildDep_lookup_name stages deps hnd hok B hB, hdep]
    have h2 : f B.name ≠ "" := by
      rw [hf, buildDep_lookup_name stages deps hnd hok B hB]
      exact hdne
    have := getLayer_succ_edge deps hacyc B.name h2
    rw [← hf, ← hfl, h1] at this
    exact this
  have hAmem := mem_mkLayers_self stages f fl A hA
  have hAlt : glA < (mkLayers stages f fl).length :=
    ((mem_mkLayers_iff stages f fl A glA).mp hAmem).2.2
  have hAfail : anyFailed (((mkLayers stages f fl).getD glA []).map exec) = true := by
    unfold anyFailed
    rw [List.any_eq_true]
    exact ⟨exec A, List.mem_map_of_mem exec hAmem, by simp [hfail]⟩
  rcases executedStages_failFast_structure exec (mkLayers stages f fl) with
    ⟨hall, _⟩ | ⟨k, hk, hkf, hkpre, hexec⟩
  · exfalso
    have hmemL : (mkLayers stages f fl).getD glA [] ∈ mkLayers stages f fl := by
      rw [List.getD_eq_getElem _ _ hAlt]
      exact List.getElem_mem _
    have := hall ((mkLayers stages f fl).getD glA []) hmemL
    rw [this] at hAfail
    exact Bool.noConfusion hAfail
  · have hkA : k ≤ glA := by
      by_contra hlt
      push_neg at hlt
      have := hkpre glA hlt
      rw [this] at hAfail
      exact Bool.noConfusion hAfail
    refine ⟨?_, runLayers_eq_map exec true _, k, hk, hkf, hkpre, hexec, ?_, ?_⟩
    · intro hmem
      rw [hexec] at hmem
      rcases (mem_flatten_take _ _ _).mp hmem with ⟨j, hj1, hj2, hj3⟩
      have := ((mem_mkLayers_iff stages f fl B j).mp hj3).2.1
      omega
    · intro s hsmem
      rw [hexec]
      exact (mem_flatten_take _ _ _).mpr ⟨k, by omega, hk, hsmem⟩
    · intro j hjk hjlen s hsj hmem
      rw [hexec] at hmem
      rcases (mem_flatten_take _ _ _).mp hmem with ⟨j', hj'1, hj'2, hj'3⟩
      have hgs1 := ((mem_mkLayers_iff stages f fl s j).mp hsj).2.1
      have hgs2 := ((mem_mkLayers_iff stages f fl s j').mp hj'3).2.1
      omega

/-! ## Example inputs for counterexamples and witnesses -/

def exStageA : Stage := { name := "A", cmd := ["echo", "a"], timeout := 10, dependsOn := "" }
def exStageB : Stage := { name := "B", cmd := ["echo", "b"], timeout := 10, dependsOn := "A" }

/-- An execution oracle on which every stage passes in one unit of time. -/
def exExecPass (s : Stage) : Result :=
  { name := s.name, command := joinSpace s.cmd, status := "pass",
    duration := 1, output := "", cacheHit := false, error := none }

/-- C4 counterexample: RunParallel returns results in dependency-layer
order, not original stage-list order.  With input [B, A] where B
depends on A, layer 0 is [A] and layer 1 is [B], so the results come
back as [A, B] while the input order was [B, A]. -/
theorem claim_C4_counterexample :
    runParallel exExecPass false [exStageB, exStageA] =
      .ok [exExecPass exStageA, exExecPass exStageB] ∧
    (stageNames [exStageB, exStageA] = ["B", "A"]) ∧
    ([exExecPass exStageA, exExecPass exStageB].map Result.name = ["A", "B"]) ∧
    (["A", "B"] ≠ (["B", "A"] : List String)) :=
  ⟨rfl, rfl, rfl, by decide⟩

/-- C4 amended: the Result list is the concatenation of per-layer
results in layer order (with fail-fast disabled every stage contributes
exactly one result, since the layers partition the stage list); the
original input stage-list order is not preserved in general. -/
theorem claim_C4_result_order (exec : Stage → Result) (stages : List Stage)
    (layers : List (List Stage)) (h : resolveOrder stages = .ok layers) :
    runParallel exec false stages = .ok ((layers.flatten).map exec) ∧
    (layers.flatten).Perm stages := by
  constructor
  · unfold runParallel
    rw [h]
    show Except.ok (runLayers exec false layers) = _
    rw [runLayers_no_failFast]
  · rcases resolveOrder_ok_elim stages layers h with ⟨deps, _, hl'⟩
    subst hl'
    exact mkLayers_flatten_perm stages _ _

theorem claim_C4_witness :
    resolveOrder [exStageB, exStageA] = .ok [[exStageA], [exStageB]] ∧
    runParallel exExecPass false [exStageB, exStageA] =
      .ok (([[exStageA], [exStageB]] : List (List Stage)).flatten.map exExecPass) ∧
    ([[exStageA], [exStageB]] : List (List Stage)).flatten.Perm [exStageB, exStageA] :=
  ⟨rfl,
   (claim_C4_result_order exExecPass [exStageB, exStageA] [[exStageA], [exStageB]] rfl).1,
   (claim_C4_result_order exExecPass [exStageB, exStageA] [[exStageA], [exStageB]] rfl).2⟩

/-- C3 counterexample: a stage list containing both a dependency cycle
(a depends on itself) and a missing dependency target (b depends on
the absent "ghost") fails with the missing-target error, not with an
error identifying a stage in the cycle: target validation runs before
cycle detection. -/
theorem claim_C3_counterexample :
    buildDepGraph
      [{ name := "a", cmd := ["x"], timeout := 0, dependsOn := "a" },
       { name := "b", cmd := ["y"], timeout := 0, dependsOn := "ghost" }] =
      .error (missingDepMsg "b" "ghost") ∧
    missingDepMsg "b" "ghost" ≠ cycleMsg "a" :=
  ⟨rfl, by decide⟩

/-- C3 amended: a stage list with a dependsOn target absent from the
list makes graph construction fail with an error naming an offending
stage and its missing target; a stage list whose targets all exist but
whose dependency relation has a cycle (a self-dependency included)
fails with an error naming a stage on a cycle; in both cases no layers
are produced and the run aborts with the structural error before any
stage executes (the result is the same error for every execution
oracle, with no per-stage results).  When both defects are present the
missing-target error takes precedence. -/
theorem claim_C3_validation_errors (stages : List Stage) :
    (∀ s ∈ stages, s.dependsOn ≠ "" → s.dependsOn ∉ stageNames stages →
      ∃ t, t ∈ stages ∧ t.dependsOn ≠ "" ∧ t.dependsOn ∉ stageNames stages ∧
        buildDepGraph stages = .error (missingDepMsg t.name t.dependsOn) ∧
        resolveOrder stages = .error (missingDepMsg t.name t.dependsOn) ∧
        ∀ (exec : Stage → Result) (failFast : Bool),
          runParallel exec failFast stages =
            .error (missingDepMsg t.name t.dependsOn)) ∧
    (∀ deps, collectDeps (stageNames stages) stages [] = .ok deps →
      HasCycle (lookupDep deps) →
      ∃ c, OnCycle (lookupDep deps) c ∧
        buildDepGraph stages = .error (cycleMsg c) ∧
        resolveOrder stages = .error (cycleMsg c) ∧
        ∀ (exec : Stage → Result) (failFast : Bool),
          runParallel exec failFast stages = .error (cycleMsg c)) := by
  constructor
  · intro s hs hne hmiss
    rcases collectDeps_error_of_missing (stageNames stages) stages [] s hs hne hmiss
      with ⟨t, ht, ht1, ht2, ht3⟩
    have hb : buildDepGraph stages = .error (missingDepMsg t.name t.dependsOn) := by
      unfold buildDepGraph
      rw [ht3]
    refine ⟨t, ht, ht1, ht2, hb, resolveOrder_error_of_build_error stages _ hb, ?_⟩
    intro exec failFast
    unfold runParallel
    rw [resolveOrder_error_of_build_error stages _ hb]
  · intro deps hcol hcyc
    rcases detectCycles_eq_some deps hcyc with ⟨e, he⟩
    rcases detectCycles_some_cycle deps e he with ⟨c, hec, hcOn⟩
    have hb : buildDepGraph stages = .error (cycleMsg c) := by
      unfold buildDepGraph
      rw [hcol]
      show (match detectCycles deps with
        | some e => Except.error e
        | none => Except.ok deps) = Except.error (cycleMsg c)
      rw [he, hec]
    refine ⟨c, hcOn, hb, resolveOrder_error_of_build_error stages _ hb, ?_⟩
    intro exec failFast
    unfold runParallel
    rw [resolveOrder_error_of_build_error stages _ hb]

/-! ## Concrete witnesses -/

def wFmt : Stage := { name := "fmt", cmd := ["cargo", "fmt"], timeout := 120, dependsOn := "" }
def wClippy : Stage := { name := "clippy", cmd := ["cargo", "clippy"], timeout := 600, dependsOn := "fmt" }
def wTest : Stage := { name := "test", cmd := ["cargo", "test"], timeout := 1200, dependsOn := "clippy" }
def wDeny : Stage := { name := "deny", cmd := ["cargo", "deny"], timeout := 300, dependsOn := "" }
def wStages : List Stage := [wFmt, wClippy, wTest, wDeny]
def wDeps : DepMap := [("clippy", "fmt"), ("test", "clippy")]
def wLayers : List (List Stage) := [[wFmt, wDeny], [wClippy], [wTest]]

/-- Witness for C1 on the default Rust stage pipeline. -/
theorem claim_C1_witness :
    (stageNames wStages).Nodup ∧
    buildDepGraph wStages = .ok wDeps ∧
    resolveOrder wStages = .ok wLayers ∧
    wLayers.length = wStages.foldl
      (fun m s => max m (getLayer (lookupDep wDeps) (layerFuel wDeps) s.name)) 0 + 1 ∧
    wFmt ∈ wLayers.getD 0 [] :=
  ⟨by decide, rfl, rfl,
   (claim_C1_layering wStages wDeps wLayers (by decide) rfl rfl).2.2.2.2.1,
   (claim_C1_layering wStages wDeps wLayers (by decide) rfl rfl).2.1 wFmt
     (by decide) rfl⟩

/-- An execution oracle on which exactly stage "A" fails. -/
def exExecFailA (s : Stage) : Result :=
  { name := s.name, command := joinSpace s.cmd,
    status := if s.name == "A" then "fail" else "pass",
    duration := 1, output := "", cacheHit := false, error := none }

/-- Witness for C2: with fail-fast, B (depending on the failed A) is
not dispatched. -/
theorem claim_C2_witness :
    (exExecFailA exStageA).status = "fail" ∧
    resolveOrder [exStageA, exStageB] = .ok [[exStageA], [exStageB]] ∧
    exStageB ∉ executedStages exExecFailA true [[exStageA], [exStageB]] :=
  ⟨rfl, rfl,
   (claim_C2_fail_fast exExecFailA [exStageA, exStageB] [[exStageA], [exStageB]]
     exStageA exStageB (by decide) rfl (by decide) (by decide) rfl (by decide)
     rfl).1⟩

def exStageGhost : Stage := { name := "b", cmd := ["y"], timeout := 0, dependsOn := "ghost" }
def exStageSelf : Stage := { name := "a", cmd := ["x"], timeout := 0, dependsOn := "a" }

/-- Witness for C3 on a missing target and on a self-dependency. -/
theorem claim_C3_witness :
    (∃ t, t ∈ [exStageGhost] ∧ t.dependsOn ≠ "" ∧
      t.dependsOn ∉ stageNames [exStageGhost] ∧
      buildDepGraph [exStageGhost] = .error (missingDepMsg t.name t.dependsOn) ∧
      resolveOrder [exStageGhost] = .error (missingDepMsg t.name t.dependsOn) ∧
      ∀ (exec : Stage → Result) (failFast : Bool),
        runParallel exec failFast [exStageGhost] =
          .error (missingDepMsg t.name t.dependsOn)) ∧
    (∃ c, OnCycle (lookupDep [("a", "a")]) c ∧
      buildDepGraph [exStageSelf] = .error (cycleMsg c) ∧
      resolveOrder [exStageSelf] = .error (cycleMsg c) ∧
      ∀ (exec : Stage → Result) (failFast : Bool),
        runParallel exec failFast [exStageSelf] = .error (cycleMsg c)) :=
  ⟨(claim_C3_validation_errors [exStageGhost]).1 exStageGhost (by decide)
     (by decide) (by decide),
   (claim_C3_validation_errors [exStageSelf]).2 [("a", "a")] rfl
     ⟨"a", 1, Nat.one_pos, by decide, by
       intro j hj
       have hj0 : j = 0 := by omega
       subst hj0
       decide⟩⟩

/-- A sequential-run oracle on which every stage passes. -/
def exSeqPass (_ : Stage) : SeqOutcome :=
  { failed := false, errText := "", output := "ok", elapsed := 1 }

/-- Witness for C5: a passing non-cached stage's entry is rewritten to
its new key. -/
theorem claim_C5_witness :
    (stageNames [exStageA]).Nodup ∧
    lookupS [] "A" ≠ "K" ∧
    lookupS (runSeq exSeqPass false (fun _ => "K") [exStageA] []).2 "A" = "K" :=
  ⟨by decide, by decide,
   (claim_C5_cache_update_policy exSeqPass false (fun _ => "K") [exStageA] []
     (by decide)).2.2.1 exStageA (by decide) (Or.inr (by decide)) rfl⟩

def wRunnerCfg : RunnerConfig :=
  { noCache := false, cache := [("A", "h|echo a")], stageHashes := [("A", "h")] }

def wRunOracle (_ : String) (_ : List String) (_ : Nat) : ExecOutcome :=
  { failure := none, output := "", elapsed := 1 }

/-- Witness for C6: a matching cache entry short-circuits executeStage
into a zero-duration cached pass without invoking the backend. -/
theorem claim_C6_witness :
    lookupS wRunnerCfg.cache exStageA.name = stageCacheKey wRunnerCfg exStageA ∧
    executeStage wRunnerCfg wRunOracle exStageA =
      some ({ name := exStageA.name, command := joinSpace exStageA.cmd,
              status := "pass", duration := 0, output := "",
              cacheHit := true, error := none }, false) :=
  ⟨by decide,
   (claim_C6_cache_hit_invariant wRunnerCfg wRunOracle exStageA).1 rfl (by decide)⟩

def wRemoteStage : Stage := { name := "t", cmd := ["make"], timeout := 10, dependsOn := "" }

/-- Witness for C7: a sentinel that reports exit code 0 at the first
poll yields a pass Result. -/
theorem claim_C7_witness :
    parseAtoiChars (trimChars ("0").data) = some 0 ∧
    remoteExecuteStage 7 "pane" (fun _ => some "0") wRemoteStage =
      { name := wRemoteStage.name, command := joinSpace wRemoteStage.cmd,
        status := "pass", duration := 0, output := "pane",
        cacheHit := false, error := none } :=
  ⟨by decide,
   ((claim_C7_sentinel_polling wRemoteStage 7 "pane" (fun _ => some "0")).1
     0 "0" 0 (by omega) (by intro j hj; omega) rfl (by decide) (by decide)
     (by decide)).1 rfl⟩

def wZeroStage : Stage := { name := "z", cmd := ["make"], timeout := 0, dependsOn := "" }

/-- Witness for the amended C8: the local default is 30 seconds; the
remote zero-timeout deadline is already expired and the stage fails at
exit-code polling with the context-deadline error. -/
theorem claim_C8_witness :
    effectiveTimeout wZeroStage = 30 ∧
    remoteExecuteStage 7 "pane" (fun _ => some "0") wZeroStage =
      { name := wZeroStage.name, command := joinSpace wZeroStage.cmd,
        status := "fail", duration := 0, output := "", cacheHit := false,
        error := some ("failed to get exit code: " ++ pollCtxMsg) } :=
  ⟨(claim_C8_amended wZeroStage).2.2.1 rfl,
   (claim_C8_amended wZeroStage).2.2.2.2.1 rfl 7 "pane" (fun _ => some "0")⟩

def wCache : CacheMap := [(['b'], ['2']), (['a'], ['1'])]

/-- Witness for the amended C9: a colon-free two-entry cache
round-trips through Save and Load. -/
theorem claim_C9_witness :
    ((wCache.map (fun p => p.1)).Nodup) ∧
    lookupC (loadCacheContent (saveCacheContent wCache)) ['a'] =
      lookupC wCache ['a'] ∧
    lookupC (loadCacheContent (saveCacheContent wCache)) ['b'] =
      lookupC wCache ['b'] :=
  ⟨by decide,
   (claim_C9_cache_round_trip wCache (by decide) (by decide)).1 ['a'],
   (claim_C9_cache_round_trip wCache (by decide) (by decide)).1 ['b']⟩

def wEmptyStage : Stage := { name := "e", cmd := [], timeout := 0, dependsOn := "" }

/-- Witness for C10: a single empty-command stage is rejected by the
upstream validation, and executeStage on it (cache miss) hits the
out-of-bounds index. -/
theorem claim_C10_witness :
    validateStageCommands (fun _ => true) [wEmptyStage] [] =
      .error (emptyCommandMsg "e") ∧
    executeStage { noCache := true, cache := [], stageHashes := [] }
      wRunOracle wEmptyStage = none :=
  ⟨by
    have h := (claim_C10_empty_command_precondition (fun _ => true) [wEmptyStage]
      { noCache := true, cache := [], stageHashes := [] } wRunOracle
      wEmptyStage).2.2.1 ⟨wEmptyStage, by decide, rfl, rfl⟩
    simpa using h,
   (claim_C10_empty_command_precondition (fun _ => true) [wEmptyStage]
     { noCache := true, cache := [], stageHashes := [] } wRunOracle
     wEmptyStage).2.2.2.2 rfl (by decide)⟩

end LocalCI
